import Mathlib

/-!
Shallow embedding of the scope-resolution engine of taskcluster-auth.

Scopes are modelled as lists of characters (JS strings).  The functions
below are direct translations of the JavaScript source:

* `scopeCompare` and `mergeScopeSets` from `auth/dfa.js` (that file's
  local definitions, with its local comparator);
* `generateDFA`, `executeDFA`, `buildResolver`, `computeFixedPoint` from
  the trie module (`src/unnamed/part_002`);
* `ScopeResolver.normalizeScopes` from `src/scoperesolver.js` and the
  `normalizeScopes` variant of `auth/data2.js`;
* the work-list loop of `buildResolver`/`resolve` and `loadClient` and
  `reload` from `src/scoperesolver.js`.

The newer modules (`src/unnamed/part_002`, `src/scoperesolver.js`) take
their comparator, merge and normalizer from the absent library
`taskcluster-lib-scopes`, which is not under `src/`; those are modelled
from the spec (`scopeCompareSpec` below, the merge algorithm — identical
to the in-repo one — bound to that comparator, and normalize as sort
plus merge with the empty set per spec section 4.1).

JS `Array.prototype.sort(cmp)` is modelled by left-to-right insertion
sort (`jsSort`).  The spec-modelled comparator is a total order
(`scopeCompareSpec_trans` and friends below), under which every correct
comparison sort produces the same result, so no engine-specific
behaviour is being modelled.
-/

/-- A scope is a JS string, modelled as a list of characters. -/
abbrev Scope := List Char

/-- JS `s.endsWith('*')`: the last character is `*` (false for `""`). -/
def endsWithStar (s : Scope) : Bool := s.getLast? == some '*'

/-- JS `s[n-1]` where `n` is a (possibly different) string length:
`undefined` when `n = 0` or the index is out of range. -/
def jsAtSub1 (s : Scope) (n : Nat) : Option Char :=
  if n = 0 then none else s[n-1]?

/-- JS string comparison `a < b`: lexicographic on code units. -/
def jsLt : List Char → List Char → Bool
  | [], [] => false
  | [], _ :: _ => true
  | _ :: _, [] => false
  | a :: as, b :: bs =>
    if a < b then true
    else if b < a then false
    else jsLt as bs

/-- Translation of `scopeCompare(a, b)` from `auth/dfa.js` lines 104-133.
Every fall-through path ends in JS `return a < b ? -1 : 1`. -/
def scopeCompare (a b : Scope) : Int :=
  let n := a.length
  let m := b.length
  let lex : Int := if jsLt a b then -1 else 1
  let d := max n m - min n m
  if d = 0 then
    if jsAtSub1 a n == some '*' || jsAtSub1 b n == some '*' then
      if b.dropLast.isPrefixOf a then
        if jsAtSub1 a n == some '*' then -1
        else if jsAtSub1 b n == some '*' then 1
        else lex
      else lex
    else lex
  else if d = 1 then
    if n > m && jsAtSub1 a n == some '*' then
      if b.isPrefixOf a then -1 else lex
    else if jsAtSub1 b n == some '*' then
      if a.isPrefixOf b then 1 else lex
    else lex
  else lex

/-- Scope satisfaction (spec section 3): `a` satisfies `b` iff `a = b`, or
`a` ends in `*` and `a` minus the star is a prefix of `b`. -/
def jsSatisfies (a b : Scope) : Bool :=
  a == b || (endsWithStar a && a.dropLast.isPrefixOf b)

/-- The stem of a scope: the scope with a trailing `*` stripped. -/
def scopeStem (s : Scope) : Scope := if endsWithStar s then s.dropLast else s

/-- Modelled from the spec: the scope comparator of
`taskcluster-lib-scopes`, which `src/unnamed/part_002` and
`src/scoperesolver.js` import and which is absent from `src/`.  Spec
section 4.1 defines it by rules 1-2 (a wildcard sorts before a
same-length or one-longer scope it covers) together with the stated
rationale — "wildcards sort immediately before the scopes they cover, so
a single left-to-right merge pass can eliminate satisfied scopes" —
otherwise lexicographic: scopes are ordered by their star-stripped stems
lexicographically, a wildcard sorting immediately before its exact stem.
Rules 1-2 are instances; unlike the raw character order (where `*` falls
between punctuation and letters) this realizes the rationale for every
covered scope.  It is a total order (see the lemmas below). -/
def scopeCompareSpec (a b : Scope) : Int :=
  if scopeStem a = scopeStem b then
    if endsWithStar a == endsWithStar b then 0
    else if endsWithStar a then -1 else 1
  else if jsLt (scopeStem a) (scopeStem b) then -1 else 1

/-- Strict forward coverage under the spec order: `y` is a star scope
whose stem starts `x` and which sorts strictly before `x`.  This is the
exact condition under which the left-to-right merge pass drops `x` in
favour of `y` (see `mem_normalize_iff`). -/
def covR (y x : Scope) : Prop :=
  endsWithStar y = true ∧ scopeStem y <+: x ∧ scopeCompareSpec y x < 0

/-- The characters of the literal `assume:`. -/
def assumeColon : Scope := "assume:".toList

/-- A role with identifier `roleId` matches scope `s` when `assume:` +
`roleId` and `s` satisfy each other in either direction (trailing `*`
honoured on both sides); this is the recognizer semantics of spec
section 8, property 6. -/
def matchesScope (roleId s : Scope) : Bool :=
  jsSatisfies s (assumeColon ++ roleId) || jsSatisfies (assumeColon ++ roleId) s

/-- Insert `x` into `l` in front of the first `y` with `cmp x y < 0`. -/
def jsInsert (cmp : α → α → Int) (x : α) : List α → List α
  | [] => [x]
  | y :: ys => if cmp x y < 0 then x :: y :: ys else y :: jsInsert cmp x ys

/-- Model of JS `Array.prototype.sort(cmp)`: left-to-right insertion. -/
def jsSort (cmp : α → α → Int) (l : List α) : List α :=
  l.foldl (fun acc x => jsInsert cmp x acc) []

/-- Dropping a prefix of elements never lengthens a list. -/
theorem length_dropWhile_le (p : α → Bool) (l : List α) :
    (l.dropWhile p).length ≤ l.length := by
  induction l with
  | nil => simp [List.dropWhile]
  | cons x xs ih =>
    simp only [List.dropWhile]
    cases p x with
    | true => exact Nat.le_succ_of_le ih
    | false => exact Nat.le_refl _

/-- The skipping step of `mergeScopeSets`: drop leading scopes that start
with the given star-free stem. -/
def skipCovered (p : Scope) (l : List Scope) : List Scope :=
  l.dropWhile (fun s => p.isPrefixOf s)

/-- Skipping covered scopes never lengthens the list. -/
theorem length_skipCovered_le (p : Scope) (l : List Scope) :
    (skipCovered p l).length ≤ l.length := length_dropWhile_le _ _

/-- The drain loops of `mergeScopeSets` (`auth/dfa.js` lines 205-227):
emit each scope, and after a star scope skip everything that starts with
its stem.  The JS loop advances an index; the model recurses with the
list length as structural fuel (always sufficient because skipping only
shortens the list, see `drainGo_covers`), so that evaluation is by
kernel reduction. -/
def drainGo : Nat → List Scope → List Scope
  | 0, _ => []
  | fuel + 1, l =>
    match l with
    | [] => []
    | s :: rest =>
      if endsWithStar s then s :: drainGo fuel (skipCovered s.dropLast rest)
      else s :: drainGo fuel rest

/-- Drain a whole list: this is also `normalize` of spec section 4.1 on
sorted input (merging the sorted list with the empty set). -/
def drainScopes (l : List Scope) : List Scope := drainGo l.length l

/-- The merge algorithm of `mergeScopeSets(scopes1, scopes2)`
(`auth/dfa.js` lines 154-228; the `taskcluster-lib-scopes` version used
by the newer modules is the same algorithm), with the combined length as
structural fuel (each step consumes at least one element) and the single
comparison site taken as a parameter. -/
def mergeGo (cmp : Scope → Scope → Int) : Nat → List Scope → List Scope → List Scope
  | 0, _, _ => []
  | fuel + 1, l1, l2 =>
    match l1, l2 with
    | [], l2 => drainScopes l2
    | l1, [] => drainScopes l1
    | s1 :: t1, s2 :: t2 =>
      if s1 == s2 then
        if endsWithStar s1 then
          s1 :: mergeGo cmp fuel (skipCovered s1.dropLast t1) (skipCovered s1.dropLast t2)
        else s1 :: mergeGo cmp fuel t1 t2
      else if cmp s1 s2 < 0 then
        if endsWithStar s1 then
          s1 :: mergeGo cmp fuel (skipCovered s1.dropLast t1) (skipCovered s1.dropLast (s2 :: t2))
        else s1 :: mergeGo cmp fuel t1 (s2 :: t2)
      else
        if endsWithStar s2 then
          s2 :: mergeGo cmp fuel (skipCovered s2.dropLast (s1 :: t1)) (skipCovered s2.dropLast t2)
        else s2 :: mergeGo cmp fuel (s1 :: t1) t2

/-- `mergeScopeSets` of `auth/dfa.js`: the merge bound to that file's
local `scopeCompare`. -/
def mergeScopeSets (l1 l2 : List Scope) : List Scope :=
  mergeGo scopeCompare (l1.length + l2.length) l1 l2

/-- Modelled from the spec: `mergeScopeSets` of `taskcluster-lib-scopes`
(imported by `src/unnamed/part_002`, absent from `src/`): the same merge
algorithm bound to the spec-modelled comparator. -/
def mergeScopeSetsLib (l1 l2 : List Scope) : List Scope :=
  mergeGo scopeCompareSpec (l1.length + l2.length) l1 l2

/-- Remove duplicates keeping first occurrences (lodash `_.uniq`). -/
def jsUniq (l : List Scope) : List Scope :=
  go [] l
where
  go (kept : List Scope) : List Scope → List Scope
    | [] => []
    | x :: xs => if x ∈ kept then go kept xs else x :: go (x :: kept) xs

/-- Translation of `ScopeResolver.normalizeScopes` from
`src/scoperesolver.js` lines 305-323: deduplicate, then keep a scope iff
every other entry either is the scope itself or does not cover it with a
trailing star. -/
def ScopeResolver.normalizeScopes (scopes : List Scope) : List Scope :=
  let u := jsUniq scopes
  u.filter fun scope =>
    u.all fun other =>
      if other == scope then true
      else !(endsWithStar other && other.dropLast.isPrefixOf scope)

/-- Translation of the `normalizeScopes` variant in `auth/data2.js`
lines 425-442 (both copies are identical): the inner test compares
`other === other`, which always holds, so the `some` is always false. -/
def Data2.normalizeScopes (scopes : List Scope) : List Scope :=
  let u := jsUniq scopes
  u.filter fun scope =>
    !(u.any fun other =>
      if other == other then false
      else endsWithStar other && other.dropLast.isPrefixOf scope)

/-- A role record `{roleId, scopes}`; `rid` is the list position, standing
in for JavaScript object identity (`r !== R` tests). -/
structure FRole where
  rid : Nat
  roleId : Scope
  scopes : List Scope
deriving DecidableEq, Repr, Inhabited

/-- An element of an entry of the `sets` array of the trie module: either
a role or a back-reference `[..., j]` to an earlier entry. -/
inductive RoleOrIdx where
  | role (r : FRole)
  | idx (j : Nat)
deriving DecidableEq, Repr

/-- A DFA state from the trie module (`src/unnamed/part_002`): indexes
into `sets` for `end` and `default`, plus character transitions.  The
key `none` stands for the JS pseudo-key `undefined` that the partition
loop can produce. -/
inductive Dfa where
  | node (endIdx : Nat) (defaultIdx : Nat) (trans : List (Option Char × Dfa))
deriving Repr, Inhabited

def Dfa.endIdx : Dfa → Nat
  | .node e _ _ => e

def Dfa.defaultIdx : Dfa → Nat
  | .node _ d _ => d

def Dfa.trans : Dfa → List (Option Char × Dfa)
  | .node _ _ t => t

/-- Read a transition off a state (JS property lookup). -/
def lookupTrans (ts : List (Option Char × Dfa)) (k : Option Char) : Option Dfa :=
  match ts.find? (fun p => p.1 == k) with
  | some p => some p.2
  | none => none

/-- Assign a transition on a state (JS property assignment: replaces an
existing key, otherwise adds it). -/
def setTrans (ts : List (Option Char × Dfa)) (k : Option Char) (v : Dfa) :
    List (Option Char × Dfa) :=
  if (ts.find? (fun p => p.1 == k)).isSome then
    ts.map fun p => if p.1 == k then (k, v) else p
  else ts ++ [(k, v)]

/-- JS `role.roleId[k]` (`undefined` past the end). -/
def charAt (r : FRole) (k : Nat) : Option Char := r.roleId[k]?

/-- Split a role list into maximal consecutive runs sharing the character
at position `k` (the partition loop of `generateDFA`). -/
def groupRuns (k : Nat) : List FRole → List (Option Char × List FRole)
  | [] => []
  | r :: rs =>
    match groupRuns k rs with
    | [] => [(charAt r k, [r])]
    | (c, grp) :: rest =>
      if charAt r k == c then (c, r :: grp) :: rest
      else (charAt r k, [r]) :: (c, grp) :: rest

/-- Translation of `generateDFA(roles, i, n, k, sets, implied)` from
`src/unnamed/part_002` lines 104-197.  The slice `roles[i:n]` is passed
as a list; `sets` is threaded in and out instead of being mutated.  The
JS recursion can fail to terminate (see the C1 analysis), so the model
takes explicit fuel; fuel 0 returns a junk state that is never reached
for the concrete inputs evaluated below. -/
def generateDFA (fuel : Nat) (roles : List FRole) (k : Nat)
    (sets : List (List RoleOrIdx)) (implied : Nat) :
    Dfa × List (List RoleOrIdx) :=
  match fuel with
  | 0 => (.node implied implied [], sets)
  | fuel + 1 =>
    match roles with
    | [] => (.node implied implied [], sets)
    | r0 :: rest0 =>
      -- head role whose roleId ends in `*` right at position k:
      -- push [role, implied], move implied, set end = default = implied
      let starHit := charAt r0 k == some '*' && r0.roleId.length == k + 1
      let roles1 := if starHit then rest0 else r0 :: rest0
      let sets1 := if starHit then sets ++ [[.role r0, .idx implied]] else sets
      let implied1 := if starHit then sets.length else implied
      match roles1 with
      | [] =>
        -- star head consumed the whole slice: return with a `*` child
        (.node implied1 implied1 [(some '*', .node implied1 implied1 [])], sets1)
      | r1 :: rest1 =>
        -- head role whose roleId terminates exactly at position k:
        -- push [role, implied] and make it the end index
        let endHit := r1.roleId.length == k
        let roles2 := if endHit then rest1 else r1 :: rest1
        let sets2 := if endHit then sets1 ++ [[.role r1, .idx implied1]] else sets1
        let endIdx := if endHit then sets1.length else implied1
        match roles2 with
        | [] =>
          (.node endIdx implied1 [(some '*', .node endIdx implied1 [])], sets2)
        | _ :: _ =>
          -- partition the remaining slice by the character at position k
          let groups := groupRuns k roles2
          let folded := groups.foldl
            (fun (acc : List (Option Char × Dfa) × List (List RoleOrIdx)) g =>
              let child := generateDFA fuel g.2 (k + 1) acc.2 implied1
              (setTrans acc.1 g.1 child.1, child.2))
            ([], sets2)
          let transAfter := folded.1
          let sets3 := folded.2
          let splitCount := (if endHit then 1 else 0) + (groups.length - 1)
          -- star child: reuse the last child's `*`-end when there was a
          -- single non-wildcard transition, otherwise intern the whole
          -- remaining slice (from after the star head) plus implied
          let starEndSets :=
            if splitCount = 0 then
              (match groups.getLast? with
               | some g =>
                 match lookupTrans transAfter g.1 with
                 | some child =>
                   match lookupTrans child.trans (some '*') with
                   | some st => st.endIdx
                   | none => 0
                 | none => 0
               | none => 0,
               sets3)
            else
              (sets3.length, sets3 ++ [(roles1.map RoleOrIdx.role) ++ [RoleOrIdx.idx implied1]])
          let star :=
            match lookupTrans transAfter (some '*') with
            | some st => Dfa.node starEndSets.1 st.defaultIdx st.trans
            | none => Dfa.node starEndSets.1 implied1 []
          (.node endIdx implied1 (setTrans transAfter (some '*') star), starEndSets.2)

/-- Translation of `executeDFA(state, scope, depth)` from
`src/unnamed/part_002` lines 205-217 (the remaining scope stands for the
positions from `depth` on; `end` and `default` are always set by
`generateDFA`, so `state.default || 0` is just the default index). -/
def executeDFA (d : Dfa) : List Char → Nat
  | [] => d.endIdx
  | c :: cs =>
    match lookupTrans d.trans (some c) with
    | some next => executeDFA next cs
    | none => d.defaultIdx

/-- The sort-then-generate part of `buildResolver(roles)` from
`src/unnamed/part_002` lines 243-247: sort roles by the imported
(spec-modelled) comparator on roleId, then generate the DFA with
`sets = [[]]`, `implied = 0`. -/
def buildResolver (fuel : Nat) (roles : List FRole) :
    Dfa × List (List RoleOrIdx) :=
  let sorted := jsSort (fun a b => scopeCompareSpec a.roleId b.roleId) roles
  generateDFA fuel sorted 0 [[]] 0

/-- The resolver closure returned by `buildResolver` (lines 255-270):
strip a leading `assume:`, map a wildcard prefix of `assume` to `*`,
otherwise answer 0 (the empty set). -/
def resolverIdx (dfa : Dfa) (scope : Scope) : Nat :=
  if assumeColon.isPrefixOf scope then executeDFA dfa (scope.drop 7)
  else if endsWithStar scope && scope.dropLast.isPrefixOf ("assume".toList) then
    executeDFA dfa ['*']
  else 0

/-- Flatten a `sets` entry through its `[role, prevIndex]`
back-references (as done by the tests and by the resolve loop). -/
def flattenSet (sets : List (List RoleOrIdx)) : Nat → Nat → List FRole
  | 0, _ => []
  | fuel + 1, i =>
    (sets.getD i []).foldl
      (fun acc e =>
        match e with
        | .role r => acc ++ [r]
        | .idx j => acc ++ flattenSet sets fuel j)
      []

/-- Mutable state of the fixed-point computation: the `seen` iteration
counter and the computed `expandedScopes`, both keyed by role identity. -/
structure FPState where
  seen : List (Nat × Nat)
  expanded : List (Nat × List Scope)
deriving Repr

def FPState.getSeen (st : FPState) (rid : Nat) : Nat :=
  match st.seen.find? (fun p => p.1 == rid) with
  | some p => p.2
  | none => 0

def FPState.setSeen (st : FPState) (rid it : Nat) : FPState :=
  { st with seen := (rid, it) :: st.seen.filter (fun p => !(p.1 == rid)) }

def FPState.getExpanded (st : FPState) (rid : Nat) : Option (List Scope) :=
  match st.expanded.find? (fun p => p.1 == rid) with
  | some p => some p.2
  | none => none

def FPState.setExpanded (st : FPState) (rid : Nat) (scopes : List Scope) : FPState :=
  { st with expanded := (rid, scopes) :: st.expanded.filter (fun p => !(p.1 == rid)) }

/-- The `expandImpliedRoles` closure of `computeFixedPoint`
(`src/unnamed/part_002` lines 297-306): walk a `sets` entry, recursing
through numeric back-references, collecting roles distinct from `R` that
are not yet collected. -/
def expandImpliedRoles (sets : List (List RoleOrIdx)) (R : FRole) :
    Nat → List FRole → Nat → List FRole
  | 0, acc, _ => acc
  | fuel + 1, acc, index =>
    (sets.getD index []).foldl
      (fun acc e =>
        match e with
        | .idx j => expandImpliedRoles sets R fuel acc j
        | .role r => if r ∈ acc || r.rid == R.rid then acc else acc ++ [r])
      acc

/-- The `traveseImpliedRoles` closure (`src/unnamed/part_002` lines
312-332): DFS over implied roles, the `seen` iteration counter replacing
a visited set, short-circuiting through already-expanded roles. -/
def traveseImpliedRoles (impliedOf : Nat → List FRole) :
    Nat → Nat → FRole → FPState → List Scope × FPState
  | 0, _, R, st => (R.scopes, st)
  | fuel + 1, iteration, R, st =>
    (impliedOf R.rid).foldl
      (fun (acc : List Scope × FPState) r =>
        if acc.2.getSeen r.rid < iteration then
          let st1 := acc.2.setSeen r.rid iteration
          match st1.getExpanded r.rid with
          | some e => (mergeScopeSetsLib acc.1 e, st1)
          | none =>
            let sub := traveseImpliedRoles impliedOf fuel iteration r st1
            (mergeScopeSetsLib acc.1 sub.1, sub.2)
        else acc)
      (R.scopes, st)

/-- The result of `computeFixedPoint`: the roles (scopes sorted), the
computed `expandedScopes` per role id, and the derived `scopeSets`. -/
structure FPResult where
  roles : List FRole
  expanded : List (Nat × List Scope)
  scopeSets : List (List Scope)
deriving Repr

/-- Translation of `computeFixedPoint(roles)` from `src/unnamed/part_002`
lines 285-378.  `perm` is the permutation of role positions produced by
`_.shuffle` (the code processes roles in a random order; the claims must
hold for any outcome).  `fuel` bounds the two recursions of the source
that have no structural measure; it is never exhausted on the concrete
inputs evaluated below. -/
def computeFixedPoint (fuel : Nat) (perm : List Nat) (roles : List FRole) : FPResult :=
  let roles1 := roles.map fun R => { R with scopes := jsSort scopeCompareSpec R.scopes }
  let built := buildResolver fuel roles1
  let dfa := built.1
  let sets := built.2
  let impliedList : List (Nat × List FRole) := roles1.map fun R =>
    (R.rid, R.scopes.foldl (fun acc s => expandImpliedRoles sets R fuel acc (resolverIdx dfa s)) [])
  let impliedOf : Nat → List FRole := fun rid =>
    match impliedList.find? (fun p => p.1 == rid) with
    | some p => p.2
    | none => []
  let ordered := perm.filterMap fun i => roles1[i]?
  let final := ordered.foldl
    (fun (acc : FPState × Nat) R =>
      let iteration := acc.2 + 1
      let st := acc.1.setSeen R.rid iteration
      let tr := traveseImpliedRoles impliedOf fuel iteration R st
      (tr.2.setExpanded R.rid tr.1, iteration))
    (⟨[], []⟩, 0)
  let st := final.1
  let expandedOf : Nat → List Scope := fun rid => (st.getExpanded rid).getD []
  let scopeSets := sets.foldl
    (fun (acc : List (List Scope)) entry =>
      acc ++ [entry.foldl
        (fun scopes e =>
          mergeScopeSetsLib scopes
            (match e with
             | .idx j => acc.getD j []
             | .role r => expandedOf r.rid))
        []])
    []
  ⟨roles1, st.expanded, scopeSets⟩

/-- Modelled from the spec: `trie.js` (`generateTrie`/`executeTrie`), the
module `src/scoperesolver.js` imports, is not under `src/`.  Per spec
section 8 property 6, executing the trie on a scope returns exactly the
roles whose `assume:<roleId>` pattern matches the scope, wildcards
honoured on both sides. -/
def rolesMatchingSpec (roles : List FRole) (scope : Scope) : List FRole :=
  roles.filter fun r => matchesScope r.roleId scope

/-- Modelled from the spec: one step of the reachability closure over the
`assume:` implication graph of spec section 4.3 (`R` can assume `r` when
some scope of `R` matches `r`, `r` distinct from `R`). -/
def reachStep (roles : List FRole) (acc : List FRole) : List FRole :=
  acc ++ roles.filter fun r =>
    decide (r ∉ acc) &&
    acc.any fun R => !(r.rid == R.rid) && R.scopes.any fun s => matchesScope r.roleId s

/-- Modelled from the spec: the roles reachable from `R` along `assume:`
edges (iterating one closure step per role suffices on a finite
catalog). -/
def reachableRoles (roles : List FRole) (R : FRole) : List FRole :=
  (List.range roles.length).foldl (fun acc _ => reachStep roles acc) [R]

/-- Modelled from the spec: the least fixed point of spec sections 4.3 and
8 property 7 — `R.expandedScopes = normalize(R.scopes ∪ ⋃ expanded of
assumable roles)` — which on a finite catalog is the normalized union of
the scopes of all roles reachable from `R`; normalize per spec section
4.1 is sort by `scopeCompare` then merge with the empty set. -/
def expandedScopesSpec (roles : List FRole) (R : FRole) : List Scope :=
  drainScopes (jsSort scopeCompareSpec
    ((reachableRoles roles R).foldl (fun acc r => acc ++ r.scopes) []))

/-- Modelled from the spec: `executeTrie(dfa, scope)` as used by the
resolve loop of `src/scoperesolver.js` line 263 — the per-matched-role
expanded scope sets, which the caller flattens with `_.flatten` and
strips of falsy entries with `.filter(e => e)` (the empty string is the
only falsy scope). -/
def executeTrieSpec (roles : List FRole) (scope : Scope) : List (List Scope) :=
  (rolesMatchingSpec roles scope).map (expandedScopesSpec roles)

/-- The expansion appended by one iteration of the resolve loop
(`src/scoperesolver.js` line 263): flatten the trie answer and drop
falsy entries. -/
def expModel (roles : List FRole) (scope : Scope) : List Scope :=
  (executeTrieSpec roles scope).flatten.filter fun e => !(e == [])

/-- The stems `p` such that `p*` passes the `assumePrefix` regex of
`src/scoperesolver.js` line 245,
`/^(:?(:?|a|as|ass|assu|assum|assum|assume)\*$|assume:)/` — note the
`(:?` group is a literal optional colon (not a non-capturing group), so
an optional leading colon is admitted before each stem. -/
def starStems : List Scope :=
  (["", ":", "::", ":a", ":as", ":ass", ":assu", ":assum", ":assume",
    "a", "as", "ass", "assu", "assum", "assume"]).map String.toList

/-- JS `assumePrefix.test(scope)`: either the scope starts with `assume:`
or the whole scope is an admitted stem followed by `*`. -/
def assumeLike (s : Scope) : Bool :=
  assumeColon.isPrefixOf s || starStems.any fun p => s == p ++ ['*']

/-- The work-list loop of the resolver closure built by `buildResolver`
in `src/scoperesolver.js` lines 247-264: `visited` holds the already
processed entries of the growing `scopes` array in reverse, `pending`
the rest; a scope that passes the `assumePrefix` filter and is unseen is
marked seen and its expansion appended.  The JS loop has no a-priori
bound, so the model takes fuel; `runLoop_isSome` below shows a
computable fuel suffices. -/
def runLoop (exp : Scope → List Scope) :
    Nat → List Scope → List Scope → List Scope → Option (List Scope)
  | 0, _, _, _ => none
  | _ + 1, visited, [], _ => some visited.reverse
  | fuel + 1, visited, s :: rest, seen =>
    if !(assumeLike s) then runLoop exp fuel (s :: visited) rest seen
    else if s ∈ seen then runLoop exp fuel (s :: visited) rest seen
    else runLoop exp fuel (s :: visited) (rest ++ exp s) (s :: seen)

/-- A fuel bound for `runLoop`: the pending scopes plus, for every
universe scope not yet seen, the cost of expanding it once. -/
def expBudget (exp : Scope → List Scope) (U seen pending : List Scope) : Nat :=
  pending.length +
    ((U.filter fun u => decide (u ∉ seen)).map fun u => 1 + (exp u).length).sum

/-- All scopes any expansion can produce: the expanded scope sets of all
roles. -/
def expUniverse (roles : List FRole) : List Scope :=
  roles.foldl (fun acc R => acc ++ expandedScopesSpec roles R) []

/-- The full `resolve` of `src/scoperesolver.js` lines 247-268: run the
work list starting from a copy of the inputs, then sort with
`scopeCompare` and normalize (`normalizeScopeSet` of
`taskcluster-lib-scopes`, modelled from spec section 4.1 as merging the
sorted list with the empty set, i.e. `drainScopes`). -/
def resolveModel (roles : List FRole) (inputs : List Scope) : Option (List Scope) :=
  let exp := expModel roles
  let U := inputs ++ expUniverse roles
  match runLoop exp (expBudget exp U [] inputs + 1) [] inputs [] with
  | some work => some (drainScopes (jsSort scopeCompareSpec work))
  | none => none

/-- Total version of `resolveModel` (the loop always completes, see
`runLoop_isSome`). -/
def resolveTotal (roles : List FRole) (inputs : List Scope) : List Scope :=
  (resolveModel roles inputs).getD []

/-- A cached client record as held by `_clientCache` in
`src/scoperesolver.js`. -/
structure CachedClient where
  clientId : Scope
  accessToken : Scope
  expires : Int
  disabled : Bool
  updateLastUsed : Bool
  unexpandedScopes : List Scope
  scopes : List Scope
  expandedScopes : List Scope
deriving DecidableEq, Repr

/-- The three typed failures of `loadClient`. -/
inductive LoadClientError where
  | notFound
  | disabled
  | expired
deriving DecidableEq, Repr

/-- Translation of `loadClient(clientId)` from `src/scoperesolver.js`
lines 281-298: unknown id fails NotFound; a disabled client fails
Disabled; an expired client fails Expired; otherwise the cached record
is returned, its `updateLastUsed` flag cleared (the code clears the flag
before firing the asynchronous last-used update). -/
def loadClient (cache : List CachedClient) (now : Int) (clientId : Scope) :
    Except LoadClientError CachedClient :=
  match cache.find? (fun c => c.clientId == clientId) with
  | none => .error .notFound
  | some c =>
    if c.disabled then .error .disabled
    else if c.expires < now then .error .expired
    else .ok { c with updateLastUsed := false }

/-- A client row as delivered by the client scan (before the handler in
`reload()` reshapes it). -/
structure RawClient where
  clientId : Scope
  accessToken : Scope
  expires : Int
  lastDateUsed : Int
  scopes : List Scope
  disabled : Bool
deriving DecidableEq, Repr

/-- The in-memory snapshot of `ScopeResolver`: `_roles`, `_clients` and
`_clientCache` (the `_resolver` closure is a function of `roles`, so
equal `roles` means equal resolver). -/
structure ResolverState where
  roles : List FRole
  clients : List CachedClient
  clientCache : List CachedClient
deriving Repr

/-- The scan handler of `reload()` (`src/scoperesolver.js` lines
186-202): shape a raw client, computing `updateLastUsed` from
`lastDateUsed < minLastUsed`. -/
def shapeClient (minLastUsed : Int) (c : RawClient) : CachedClient :=
  { clientId := c.clientId, accessToken := c.accessToken, expires := c.expires,
    disabled := c.disabled,
    updateLastUsed := decide (c.lastDateUsed < minLastUsed),
    unexpandedScopes := c.scopes, scopes := [], expandedScopes := [] }

/-- Translation of `_rebuildResolver()` (`src/scoperesolver.js` lines
220-231): rebuild the resolver from the current roles and recompute
every client's expanded scopes into the client cache. -/
def rebuildResolver (st : ResolverState) : ResolverState :=
  let withScopes := st.clients.map fun c =>
    let scopes := resolveTotal st.roles c.unexpandedScopes
    { c with scopes := scopes, expandedScopes := scopes }
  { st with clients := withScopes, clientCache := withScopes }

/-- Translation of the body of `reload()` (`src/scoperesolver.js` lines
175-217) in the exception monad: the two scans are awaited first (either
failure rejects before any field of `this` is assigned); only then are
`_roles` and `_clients` replaced and the resolver rebuilt. -/
def reloadResult (st : ResolverState) (clientScan : Except ε (List RawClient))
    (roleScan : Except ε (List (Scope × List Scope))) (minLastUsed : Int) :
    Except ε ResolverState :=
  match clientScan with
  | .error e => .error e
  | .ok rawClients =>
    match roleScan with
    | .error e => .error e
    | .ok rawRoles =>
      let clients := rawClients.map (shapeClient minLastUsed)
      let roles := rawRoles.enum.map fun p => FRole.mk p.1 p.2.1 p.2.2
      .ok (rebuildResolver { st with roles := roles, clients := clients })

/-- The published snapshot after a reload: a rejected reload is caught by
the serialization chain (`_syncReload`, lines 135-137) and leaves the
snapshot untouched. -/
def applyReload (st : ResolverState) (clientScan : Except ε (List RawClient))
    (roleScan : Except ε (List (Scope × List Scope))) (minLastUsed : Int) :
    ResolverState :=
  match reloadResult st clientScan roleScan minLastUsed with
  | .ok st2 => st2
  | .error _ => st

/-- The cyclic two-role catalog of spec section 8 scenario 4: role `A`
grants `assume:B` and `scope-a`, role `B` grants `assume:A` and
`scope-b`. -/
def cycleRoles : List FRole :=
  [⟨0, "A".toList, ["assume:B".toList, "scope-a".toList]⟩,
   ⟨1, "B".toList, ["assume:A".toList, "scope-b".toList]⟩]

/-! Helper lemmas. -/

theorem mem_jsInsert (cmp : α → α → Int) (x y : α) (l : List α) :
    y ∈ jsInsert cmp x l ↔ y = x ∨ y ∈ l := by
  induction l with
  | nil => simp [jsInsert]
  | cons z zs ih =>
    simp only [jsInsert]
    split
    · simp [List.mem_cons]
    · simp only [List.mem_cons, ih]
      tauto

theorem mem_jsSort_aux (cmp : α → α → Int) (y : α) :
    ∀ (l acc : List α),
      (y ∈ l.foldl (fun acc x => jsInsert cmp x acc) acc ↔ y ∈ acc ∨ y ∈ l) := by
  intro l
  induction l with
  | nil => intro acc; simp
  | cons z zs ih =>
    intro acc
    simp only [List.foldl_cons, ih, mem_jsInsert, List.mem_cons]
    tauto

theorem mem_jsSort (cmp : α → α → Int) (y : α) (l : List α) :
    y ∈ jsSort cmp l ↔ y ∈ l := by
  simp [jsSort, mem_jsSort_aux]

theorem mem_takeWhile_sat (p : α → Bool) :
    ∀ (l : List α) (x : α), x ∈ l.takeWhile p → p x = true := by
  intro l
  induction l with
  | nil => intro x h; simp [List.takeWhile] at h
  | cons z zs ih =>
    intro x h
    simp only [List.takeWhile] at h
    cases hz : p z with
    | true =>
      rw [hz] at h
      rcases List.mem_cons.mp h with h1 | h1
      · subst h1; exact hz
      · exact ih x h1
    | false => rw [hz] at h; simp at h

/-- Everything in a list is satisfied by something the drain keeps: a
scope is either emitted, or skipped because an emitted star scope's stem
starts it. -/
theorem drainGo_covers :
    ∀ (n : Nat) (l : List Scope), l.length ≤ n →
      ∀ x ∈ l, ∃ y ∈ drainGo n l, jsSatisfies y x = true := by
  intro n
  induction n with
  | zero =>
    intro l hl x hx
    rw [List.length_eq_zero.mp (Nat.le_zero.mp hl)] at hx
    simp at hx
  | succ n ih =>
    intro l hl x hx
    cases l with
    | nil => simp at hx
    | cons s rest =>
      have hunfold : drainGo (n + 1) (s :: rest) =
          if endsWithStar s then s :: drainGo n (skipCovered s.dropLast rest)
          else s :: drainGo n rest := rfl
      have hself : jsSatisfies s s = true := by simp [jsSatisfies]
      rcases List.mem_cons.mp hx with hx1 | hx1
      · refine ⟨s, ?_, by rw [hx1]; exact hself⟩
        rw [hunfold]
        split <;> exact List.mem_cons_self _ _
      · cases hstar : endsWithStar s with
        | false =>
          have hlen : rest.length ≤ n := by
            simp only [List.length_cons] at hl; omega
          obtain ⟨y, hy, hsat⟩ := ih rest hlen x hx1
          refine ⟨y, ?_, hsat⟩
          rw [hunfold, if_neg (by simp [hstar])]
          exact List.mem_cons_of_mem _ hy
        | true =>
          rw [← List.takeWhile_append_dropWhile
                (p := fun t => s.dropLast.isPrefixOf t) (l := rest)] at hx1
          rcases List.mem_append.mp hx1 with hx2 | hx2
          · refine ⟨s, ?_, ?_⟩
            · rw [hunfold]
              split <;> exact List.mem_cons_self _ _
            · have hp := mem_takeWhile_sat _ _ _ hx2
              simp only [jsSatisfies, hstar, hp, Bool.and_self, Bool.or_true]
          · have hlen : (skipCovered s.dropLast rest).length ≤ n := by
              have h1 := length_skipCovered_le s.dropLast rest
              simp only [List.length_cons] at hl; omega
            obtain ⟨y, hy, hsat⟩ := ih _ hlen x hx2
            refine ⟨y, ?_, hsat⟩
            rw [hunfold, if_pos hstar]
            exact List.mem_cons_of_mem _ hy

/-- Everything in a list is satisfied by something `drainScopes` keeps. -/
theorem drainScopes_covers (l : List Scope) :
    ∀ x ∈ l, ∃ y ∈ drainScopes l, jsSatisfies y x = true :=
  drainGo_covers l.length l (Nat.le_refl _)

/-- Every scope that is in the work list (processed or pending) at any
point of the loop ends up in the final work list. -/
theorem runLoop_mem (exp : Scope → List Scope) :
    ∀ (fuel : Nat) (visited pending seen w : List Scope),
      runLoop exp fuel visited pending seen = some w →
      ∀ x, (x ∈ visited ∨ x ∈ pending) → x ∈ w := by
  intro fuel
  induction fuel with
  | zero => intro visited pending seen w h; simp [runLoop] at h
  | succ fuel ih =>
    intro visited pending seen w h x hx
    cases pending with
    | nil =>
      simp only [runLoop, Option.some.injEq] at h
      subst h
      rcases hx with hx | hx
      · exact List.mem_reverse.mpr hx
      · simp at hx
    | cons s rest =>
      have hstep : ∀ (pend2 seen2 : List Scope),
          runLoop exp fuel (s :: visited) pend2 seen2 = some w →
          (x ∈ s :: visited ∨ x ∈ pend2) → x ∈ w := fun p2 s2 hh hxx => ih _ _ _ _ hh x hxx
      rw [runLoop] at h
      rcases hx with hx | hx
      · split at h
        · exact hstep _ _ h (Or.inl (List.mem_cons_of_mem _ hx))
        · split at h
          · exact hstep _ _ h (Or.inl (List.mem_cons_of_mem _ hx))
          · exact hstep _ _ h (Or.inl (List.mem_cons_of_mem _ hx))
      · rcases List.mem_cons.mp hx with hx1 | hx1
        · subst hx1
          split at h
          · exact hstep _ _ h (Or.inl (List.mem_cons_self _ _))
          · split at h
            · exact hstep _ _ h (Or.inl (List.mem_cons_self _ _))
            · exact hstep _ _ h (Or.inl (List.mem_cons_self _ _))
        · split at h
          · exact hstep _ _ h (Or.inr hx1)
          · split at h
            · exact hstep _ _ h (Or.inr hx1)
            · exact hstep _ _ h (Or.inr (List.mem_append_left _ hx1))

theorem sum_filter_imp_le (f : α → Nat) (p q : α → Bool)
    (h : ∀ a, p a = true → q a = true) :
    ∀ U : List α, ((U.filter p).map f).sum ≤ ((U.filter q).map f).sum := by
  intro U
  induction U with
  | nil => simp
  | cons u U ih =>
    simp only [List.filter_cons]
    cases hp : p u with
    | true =>
      rw [h u hp]
      simp only [List.map_cons, List.sum_cons]
      exact Nat.add_le_add_left ih _
    | false =>
      cases hq : q u with
      | true =>
        simp only [List.map_cons, List.sum_cons]
        exact Nat.le_trans ih (Nat.le_add_left _ _)
      | false => exact ih

/-- Marking an unseen universe scope as seen frees at least its own cost
from the budget sum. -/
theorem sum_filter_seen_drop (f : Scope → Nat) (seen : List Scope) (s : Scope) :
    ∀ U : List Scope, s ∈ U → s ∉ seen →
      ((U.filter fun u => decide (u ∉ s :: seen)).map f).sum + f s ≤
        ((U.filter fun u => decide (u ∉ seen)).map f).sum := by
  intro U
  induction U with
  | nil => intro h; simp at h
  | cons u U ih =>
    intro hs hns
    have hmono : ∀ a : Scope, (decide (a ∉ s :: seen)) = true →
        (decide (a ∉ seen)) = true := by
      intro a ha
      simp only [decide_eq_true_eq, List.mem_cons] at ha ⊢
      exact fun hmem => ha (Or.inr hmem)
    by_cases hu : u = s
    · subst hu
      have hsum := sum_filter_imp_le f _ _ hmono U
      rw [List.filter_cons, List.filter_cons,
          if_neg (by simp : ¬(decide (u ∉ u :: seen)) = true),
          if_pos (by simpa using hns : (decide (u ∉ seen)) = true)]
      simp only [List.map_cons, List.sum_cons]
      omega
    · have hs2 : s ∈ U := by
        rcases List.mem_cons.mp hs with h1 | h1
        · exact absurd h1.symm hu
        · exact h1
      have hih := ih hs2 hns
      by_cases hmem : u ∈ seen
      · rw [List.filter_cons, List.filter_cons,
            if_neg (by simp [hmem] : ¬(decide (u ∉ s :: seen)) = true),
            if_neg (by simp [hmem] : ¬(decide (u ∉ seen)) = true)]
        exact hih
      · rw [List.filter_cons, List.filter_cons,
            if_pos (by simp [hmem, hu] : (decide (u ∉ s :: seen)) = true),
            if_pos (by simp [hmem] : (decide (u ∉ seen)) = true)]
        simp only [List.map_cons, List.sum_cons]
        omega

/-- With enough fuel the work-list loop completes: the budget — pending
length plus the cost of expanding every not-yet-seen universe scope —
strictly decreases at each step. -/
theorem runLoop_isSome (exp : Scope → List Scope) (U : List Scope)
    (hU : ∀ s x, x ∈ exp s → x ∈ U) :
    ∀ (fuel : Nat) (pending seen visited : List Scope),
      (∀ p ∈ pending, p ∈ U) →
      expBudget exp U seen pending < fuel →
      (runLoop exp fuel visited pending seen).isSome = true := by
  intro fuel
  induction fuel with
  | zero => intro pending seen visited _ hlt; omega
  | succ fuel ih =>
    intro pending seen visited hp hlt
    cases pending with
    | nil => simp [runLoop]
    | cons s rest =>
      have hrest : ∀ p ∈ rest, p ∈ U := fun p h => hp p (List.mem_cons_of_mem _ h)
      have hbudget : expBudget exp U seen rest < fuel := by
        simp only [expBudget, List.length_cons] at hlt ⊢
        omega
      rw [runLoop]
      split
      · exact ih rest seen (s :: visited) hrest hbudget
      · split
        · exact ih rest seen (s :: visited) hrest hbudget
        · rename_i hseen
          have hsU : s ∈ U := hp s (List.mem_cons_self _ _)
          have hdrop := sum_filter_seen_drop
            (fun u => 1 + (exp u).length) seen s U hsU hseen
          simp only [] at hdrop
          refine ih (rest ++ exp s) (s :: seen) (s :: visited) ?_ ?_
          · intro p hmem
            rcases List.mem_append.mp hmem with h1 | h1
            · exact hrest p h1
            · exact hU s p h1
          · simp only [expBudget, List.length_append, List.length_cons] at hlt ⊢
            omega

theorem mem_foldl_append (f : FRole → List Scope) :
    ∀ (l : List FRole) (acc : List Scope) (x : Scope),
      x ∈ l.foldl (fun acc R => acc ++ f R) acc ↔ x ∈ acc ∨ ∃ R ∈ l, x ∈ f R := by
  intro l
  induction l with
  | nil => intro acc x; simp
  | cons R l ih =>
    intro acc x
    simp only [List.foldl_cons, ih, List.mem_append, List.mem_cons]
    constructor
    · rintro ((h | h) | ⟨S, hS, hx⟩)
      · exact Or.inl h
      · exact Or.inr ⟨R, Or.inl rfl, h⟩
      · exact Or.inr ⟨S, Or.inr hS, hx⟩
    · rintro (h | ⟨S, hS | hS, hx⟩)
      · exact Or.inl (Or.inl h)
      · exact Or.inl (Or.inr (hS ▸ hx))
      · exact Or.inr ⟨S, hS, hx⟩

/-- Every scope an expansion can produce lies in the expansion universe. -/
theorem expModel_mem_universe (roles : List FRole) (s x : Scope)
    (hx : x ∈ expModel roles s) : x ∈ expUniverse roles := by
  simp only [expModel, executeTrieSpec, List.mem_filter,
    List.mem_flatten, List.mem_map] at hx
  obtain ⟨⟨l, ⟨r, hr, hl⟩, hxl⟩, -⟩ := hx
  have hr2 : r ∈ roles.filter (fun r => matchesScope r.roleId s) := by
    simpa [rolesMatchingSpec] using hr
  have hrr : r ∈ roles := (List.mem_filter.mp hr2).1
  simp only [expUniverse, mem_foldl_append]
  exact Or.inr ⟨r, hrr, hl ▸ hxl⟩

/-- The resolve loop always completes with the computed fuel bound. -/
theorem resolveModel_isSome (roles : List FRole) (inputs : List Scope) :
    (resolveModel roles inputs).isSome = true := by
  have h := runLoop_isSome (expModel roles) (inputs ++ expUniverse roles)
    (fun s x hx => List.mem_append_right _ (expModel_mem_universe roles s x hx))
    (expBudget (expModel roles) (inputs ++ expUniverse roles) [] inputs + 1)
    inputs [] []
    (fun p hp => List.mem_append_left _ hp)
    (Nat.lt_succ_self _)
  simp only [resolveModel]
  cases hrun : runLoop (expModel roles)
      (expBudget (expModel roles) (inputs ++ expUniverse roles) [] inputs + 1)
      [] inputs [] with
  | none => rw [hrun] at h; simp at h
  | some w => simp

/-- Strict-satisfaction absorption for the scoperesolver.js variant: when
`a` satisfies `b` and `b` does not satisfy `a` back (or equals it),
normalizing the pair yields exactly `[a]`. -/
theorem normalizeScopes_pair_strict (a b : Scope) (hab : jsSatisfies a b = true)
    (h : b = a ∨ jsSatisfies b a = false) :
    ScopeResolver.normalizeScopes [a, b] = [a] := by
  by_cases hba : b = a
  · subst hba
    simp [ScopeResolver.normalizeScopes, jsUniq, jsUniq.go]
  · have hsatba : jsSatisfies b a = false := by
      rcases h with h1 | h1
      · exact absurd h1 hba
      · exact h1
    have hbeq : (b == a) = false := beq_eq_false_iff_ne.mpr hba
    have habeq : (a == b) = false := beq_eq_false_iff_ne.mpr (fun hh => hba hh.symm)
    have hstar : (endsWithStar a && a.dropLast.isPrefixOf b) = true := by
      simp only [jsSatisfies, habeq, Bool.false_or] at hab
      exact hab
    have hnc : (endsWithStar b && b.dropLast.isPrefixOf a) = false := by
      simp only [jsSatisfies, hbeq, Bool.false_or] at hsatba
      exact hsatba
    have huniq : jsUniq [a, b] = [a, b] := by
      simp [jsUniq, jsUniq.go, hba]
    simp only [ScopeResolver.normalizeScopes, huniq]
    simp [List.filter, List.all, hbeq, habeq, hstar, hnc]

/-! Order theory of `jsLt` and `scopeCompareSpec`, used for the
idempotence proof of resolve. -/

theorem isPrefixOf_eq (p l : Scope) : p.isPrefixOf l = true ↔ p <+: l :=
  List.isPrefixOf_iff_prefix

theorem jsLt_cons (x y : Char) (xs ys : List Char) :
    jsLt (x :: xs) (y :: ys) =
      if x < y then true else if y < x then false else jsLt xs ys := rfl

theorem jsLt_irrefl : ∀ (a : List Char), jsLt a a = false := by
  intro a
  induction a with
  | nil => rfl
  | cons x xs ih =>
    rw [jsLt_cons, if_neg (lt_irrefl x), if_neg (lt_irrefl x)]
    exact ih

theorem jsLt_asymm : ∀ (a b : List Char), jsLt a b = true → jsLt b a = false := by
  intro a
  induction a with
  | nil =>
    intro b h
    cases b with
    | nil => simp [jsLt] at h
    | cons y ys => rfl
  | cons x xs ih =>
    intro b h
    cases b with
    | nil => simp [jsLt] at h
    | cons y ys =>
      rw [jsLt_cons] at h ⊢
      by_cases hxy : x < y
      · rw [if_neg (lt_asymm hxy), if_pos hxy]
      · rw [if_neg hxy] at h
        by_cases hyx : y < x
        · rw [if_pos hyx] at h; simp at h
        · rw [if_neg hyx] at h
          rw [if_neg hyx, if_neg hxy]
          exact ih ys h

theorem jsLt_trans : ∀ (a b c : List Char),
    jsLt a b = true → jsLt b c = true → jsLt a c = true := by
  intro a
  induction a with
  | nil =>
    intro b c hab hbc
    cases b with
    | nil => simp [jsLt] at hab
    | cons y ys =>
      cases c with
      | nil => simp [jsLt] at hbc
      | cons z zs => rfl
  | cons x xs ih =>
    intro b c hab hbc
    cases b with
    | nil => simp [jsLt] at hab
    | cons y ys =>
      cases c with
      | nil => simp [jsLt] at hbc
      | cons z zs =>
        rw [jsLt_cons] at hab hbc ⊢
        by_cases hxy : x < y
        · by_cases hyz : y < z
          · rw [if_pos (lt_trans hxy hyz)]
          · rw [if_neg hyz] at hbc
            by_cases hzy : z < y
            · rw [if_pos hzy] at hbc; simp at hbc
            · have heq : y = z := le_antisymm (not_lt.mp hzy) (not_lt.mp hyz)
              rw [if_pos (heq ▸ hxy)]
        · rw [if_neg hxy] at hab
          by_cases hyx : y < x
          · rw [if_pos hyx] at hab; simp at hab
          · rw [if_neg hyx] at hab
            have hxy2 : x = y := le_antisymm (not_lt.mp hyx) (not_lt.mp hxy)
            by_cases hyz : y < z
            · rw [if_pos (hxy2 ▸ hyz)]
            · rw [if_neg hyz] at hbc
              by_cases hzy : z < y
              · rw [if_pos hzy] at hbc; simp at hbc
              · rw [if_neg hzy] at hbc
                have hyz2 : y = z := le_antisymm (not_lt.mp hzy) (not_lt.mp hyz)
                subst hxy2; subst hyz2
                rw [if_neg hxy, if_neg hxy]
                exact ih ys zs hab hbc

theorem jsLt_conn : ∀ (a b : List Char),
    jsLt a b = false → jsLt b a = false → a = b := by
  intro a
  induction a with
  | nil =>
    intro b hab _
    cases b with
    | nil => rfl
    | cons y ys => simp [jsLt] at hab
  | cons x xs ih =>
    intro b hab hba
    cases b with
    | nil => simp [jsLt] at hba
    | cons y ys =>
      rw [jsLt_cons] at hab hba
      by_cases hxy : x < y
      · rw [if_pos hxy] at hab; simp at hab
      · by_cases hyx : y < x
        · rw [if_pos hyx] at hba; simp at hba
        · rw [if_neg hxy, if_neg hyx] at hab
          rw [if_neg hyx, if_neg hxy] at hba
          have hxy2 : x = y := le_antisymm (not_lt.mp hyx) (not_lt.mp hxy)
          rw [hxy2, ih ys hab hba]

theorem jsLt_append_ne : ∀ (l r : List Char), r ≠ [] → jsLt l (l ++ r) = true := by
  intro l
  induction l with
  | nil =>
    intro r hr
    cases r with
    | nil => exact absurd rfl hr
    | cons c cs => rfl
  | cons x xs ih =>
    intro r hr
    rw [List.cons_append, jsLt_cons, if_neg (lt_irrefl x), if_neg (lt_irrefl x)]
    exact ih r hr

theorem jsLt_prefix_sandwich :
    ∀ (p a b : List Char), (jsLt p a = true ∨ p = a) → (jsLt a b = true ∨ a = b) →
      p <+: b → p <+: a := by
  intro p
  induction p with
  | nil => intro a b _ _ _; exact ⟨a, rfl⟩
  | cons c p2 ih =>
    intro a b h1 h2 hpb
    obtain ⟨t, ht⟩ := hpb
    cases b with
    | nil => simp at ht
    | cons d b2 =>
      rw [List.cons_append] at ht
      injection ht with hcd hrest
      subst hcd
      cases a with
      | nil =>
        rcases h1 with h1 | h1
        · simp [jsLt] at h1
        · simp at h1
      | cons e a2 =>
        by_cases hce : c < e
        · rcases h2 with h2 | h2
          · rw [jsLt_cons, if_neg (lt_asymm hce), if_pos hce] at h2
            simp at h2
          · injection h2 with he _
            rw [he] at hce
            exact absurd hce (lt_irrefl c)
        · by_cases hec : e < c
          · rcases h1 with h1 | h1
            · rw [jsLt_cons, if_neg hce, if_pos hec] at h1
              simp at h1
            · injection h1 with he _
              rw [← he] at hec
              exact absurd hec (lt_irrefl c)
          · have hceq : c = e := le_antisymm (not_lt.mp hec) (not_lt.mp hce)
            subst hceq
            have hp2a2 : p2 <+: a2 := by
              apply ih a2 b2
              · rcases h1 with h1 | h1
                · rw [jsLt_cons, if_neg (lt_irrefl c), if_neg (lt_irrefl c)] at h1
                  exact Or.inl h1
                · injection h1 with _ h; exact Or.inr h
              · rcases h2 with h2 | h2
                · rw [jsLt_cons, if_neg (lt_irrefl c), if_neg (lt_irrefl c)] at h2
                  exact Or.inl h2
                · injection h2 with _ h; exact Or.inr h
              · exact ⟨t, hrest⟩
            obtain ⟨u, hu⟩ := hp2a2
            exact ⟨u, by rw [List.cons_append, hu]⟩

theorem eq_dropLast_append_star : ∀ (s : Scope), endsWithStar s = true →
    s = s.dropLast ++ ['*'] := by
  intro s
  induction s with
  | nil => intro h; simp [endsWithStar] at h
  | cons c t ih =>
    intro h
    cases t with
    | nil =>
      have hc : c = '*' := by simpa [endsWithStar] using h
      rw [hc]; rfl
    | cons d t2 =>
      have h2 : endsWithStar (d :: t2) = true := by
        simpa [endsWithStar, List.getLast?_cons_cons] using h
      have h3 := ih h2
      calc c :: d :: t2 = c :: ((d :: t2).dropLast ++ ['*']) := by rw [← h3]
        _ = (c :: d :: t2).dropLast ++ ['*'] := rfl

theorem scopeStem_star (s : Scope) (h : endsWithStar s = true) :
    s = scopeStem s ++ ['*'] := by
  unfold scopeStem
  rw [if_pos h]
  exact eq_dropLast_append_star s h

theorem scopeStem_nonstar (s : Scope) (h : endsWithStar s = false) :
    scopeStem s = s := by
  unfold scopeStem
  rw [h]
  rfl

theorem scopeStem_isPrefix (s : Scope) : scopeStem s <+: s := by
  cases h : endsWithStar s with
  | true => exact ⟨['*'], (scopeStem_star s h).symm⟩
  | false => rw [scopeStem_nonstar s h]

theorem endsWithStar_append_star (p : Scope) : endsWithStar (p ++ ['*']) = true := by
  simp [endsWithStar, List.getLast?_concat]

theorem scopeStem_append_star (p : Scope) : scopeStem (p ++ ['*']) = p := by
  unfold scopeStem
  rw [if_pos (endsWithStar_append_star p)]
  exact List.dropLast_concat

theorem length_scopeStem_star (s : Scope) (h : endsWithStar s = true) :
    s.length = (scopeStem s).length + 1 := by
  conv_lhs => rw [scopeStem_star s h]
  simp

theorem scopeCompareSpec_self (a : Scope) : scopeCompareSpec a a = 0 := by
  simp [scopeCompareSpec]

theorem scopeCompareSpec_eq_zero {a b : Scope} (h : scopeCompareSpec a b = 0) :
    a = b := by
  unfold scopeCompareSpec at h
  split at h
  · rename_i hstem
    split at h
    · rename_i hflag
      have hflag2 : endsWithStar a = endsWithStar b := by simpa using hflag
      cases hsa : endsWithStar a with
      | true =>
        have hsb : endsWithStar b = true := by rw [← hflag2, hsa]
        calc a = scopeStem a ++ ['*'] := scopeStem_star a hsa
          _ = scopeStem b ++ ['*'] := by rw [hstem]
          _ = b := (scopeStem_star b hsb).symm
      | false =>
        have hsb : endsWithStar b = false := by rw [← hflag2, hsa]
        calc a = scopeStem a := (scopeStem_nonstar a hsa).symm
          _ = scopeStem b := hstem
          _ = b := scopeStem_nonstar b hsb
    · split at h <;> exact absurd h (by decide)
  · split at h <;> exact absurd h (by decide)

theorem scopeCompareSpec_lt_iff (a b : Scope) :
    scopeCompareSpec a b < 0 ↔
      (jsLt (scopeStem a) (scopeStem b) = true ∨
        (scopeStem a = scopeStem b ∧ endsWithStar a = true ∧ endsWithStar b = false)) := by
  unfold scopeCompareSpec
  split
  · rename_i hstem
    split
    · rename_i hflag
      have hflag2 : endsWithStar a = endsWithStar b := by simpa using hflag
      constructor
      · intro h; exact absurd h (by decide)
      · rintro (h | ⟨-, h1, h2⟩)
        · rw [hstem, jsLt_irrefl] at h; simp at h
        · rw [h1, h2] at hflag2; simp at hflag2
    · rename_i hflag
      split
      · rename_i hsa
        constructor
        · intro _
          right
          refine ⟨hstem, hsa, ?_⟩
          cases hsb : endsWithStar b with
          | false => rfl
          | true =>
            have : (endsWithStar a == endsWithStar b) = true := by rw [hsa, hsb]; rfl
            exact absurd this hflag
        · intro _; decide
      · rename_i hsa
        constructor
        · intro h; exact absurd h (by decide)
        · rintro (h | ⟨-, h1, -⟩)
          · rw [hstem, jsLt_irrefl] at h; simp at h
          · exact absurd h1 hsa
  · rename_i hstem
    split
    · rename_i hlt
      constructor
      · intro _; exact Or.inl hlt
      · intro _; decide
    · rename_i hlt
      constructor
      · intro h; exact absurd h (by decide)
      · rintro (h | ⟨h1, -, -⟩)
        · exact absurd h hlt
        · exact absurd h1 hstem

theorem scopeCompareSpec_le_iff (a b : Scope) :
    scopeCompareSpec a b ≤ 0 ↔
      (jsLt (scopeStem a) (scopeStem b) = true ∨
        (scopeStem a = scopeStem b ∧ (endsWithStar b = true → endsWithStar a = true))) := by
  unfold scopeCompareSpec
  split
  · rename_i hstem
    split
    · rename_i hflag
      have hflag2 : endsWithStar a = endsWithStar b := by simpa using hflag
      constructor
      · intro _
        exact Or.inr ⟨hstem, fun hb => by rw [hflag2, hb]⟩
      · intro _; decide
    · rename_i hflag
      split
      · rename_i hsa
        constructor
        · intro _
          exact Or.inr ⟨hstem, fun _ => hsa⟩
        · intro _; decide
      · rename_i hsa
        have hsa2 : endsWithStar a = false := by
          cases h : endsWithStar a with
          | true => exact absurd h hsa
          | false => rfl
        have hsb : endsWithStar b = true := by
          cases h : endsWithStar b with
          | true => rfl
          | false =>
            have : (endsWithStar a == endsWithStar b) = true := by rw [hsa2, h]; rfl
            exact absurd this hflag
        constructor
        · intro h; exact absurd h (by decide)
        · rintro (h | ⟨-, h1⟩)
          · rw [hstem, jsLt_irrefl] at h; simp at h
          · rw [h1 hsb] at hsa2; simp at hsa2
  · rename_i hstem
    split
    · rename_i hlt
      exact ⟨fun _ => Or.inl hlt, fun _ => by decide⟩
    · rename_i hlt
      constructor
      · intro h; exact absurd h (by decide)
      · rintro (h | ⟨h1, -⟩)
        · exact absurd h hlt
        · exact absurd h1 hstem

theorem scopeCompareSpec_trans {a b c : Scope} (h1 : scopeCompareSpec a b ≤ 0)
    (h2 : scopeCompareSpec b c ≤ 0) : scopeCompareSpec a c ≤ 0 := by
  rw [scopeCompareSpec_le_iff] at h1 h2 ⊢
  rcases h1 with h1 | ⟨h1, h1f⟩
  · rcases h2 with h2 | ⟨h2, -⟩
    · exact Or.inl (jsLt_trans _ _ _ h1 h2)
    · exact Or.inl (by rw [← h2]; exact h1)
  · rcases h2 with h2 | ⟨h2, h2f⟩
    · exact Or.inl (by rw [h1]; exact h2)
    · exact Or.inr ⟨h1.trans h2, fun hc => h1f (h2f hc)⟩

theorem scopeCompareSpec_trans_lt {a b c : Scope} (h1 : scopeCompareSpec a b < 0)
    (h2 : scopeCompareSpec b c < 0) : scopeCompareSpec a c < 0 := by
  rw [scopeCompareSpec_lt_iff] at h1 h2 ⊢
  rcases h1 with h1 | ⟨h1, h1a, h1b⟩
  · rcases h2 with h2 | ⟨h2, -, -⟩
    · exact Or.inl (jsLt_trans _ _ _ h1 h2)
    · exact Or.inl (by rw [← h2]; exact h1)
  · rcases h2 with h2 | ⟨h2, h2b, -⟩
    · exact Or.inl (by rw [h1]; exact h2)
    · rw [h2b] at h1b; simp at h1b

theorem scopeCompareSpec_asymm {a b : Scope} (h1 : scopeCompareSpec a b ≤ 0)
    (h2 : scopeCompareSpec b a < 0) : False := by
  rw [scopeCompareSpec_le_iff] at h1
  rw [scopeCompareSpec_lt_iff] at h2
  rcases h1 with h1 | ⟨h1, h1f⟩
  · rcases h2 with h2 | ⟨h2, -, -⟩
    · rw [jsLt_asymm _ _ h1] at h2; simp at h2
    · rw [h2, jsLt_irrefl] at h1; simp at h1
  · rcases h2 with h2 | ⟨-, h2a, h2b⟩
    · rw [h1, jsLt_irrefl] at h2; simp at h2
    · exact absurd (h1f h2a) (by simp [h2b])

theorem scopeCompareSpec_le_total (a b : Scope) :
    scopeCompareSpec a b ≤ 0 ∨ scopeCompareSpec b a ≤ 0 := by
  cases hab : jsLt (scopeStem a) (scopeStem b) with
  | true => exact Or.inl ((scopeCompareSpec_le_iff a b).mpr (Or.inl hab))
  | false =>
    cases hba : jsLt (scopeStem b) (scopeStem a) with
    | true => exact Or.inr ((scopeCompareSpec_le_iff b a).mpr (Or.inl hba))
    | false =>
      have heq : scopeStem a = scopeStem b := jsLt_conn _ _ hab hba
      cases hsa : endsWithStar a with
      | true =>
        exact Or.inl ((scopeCompareSpec_le_iff a b).mpr (Or.inr ⟨heq, fun _ => hsa⟩))
      | false =>
        cases hsb : endsWithStar b with
        | true =>
          exact Or.inr ((scopeCompareSpec_le_iff b a).mpr (Or.inr ⟨heq.symm, fun _ => hsb⟩))
        | false =>
          exact Or.inl ((scopeCompareSpec_le_iff a b).mpr
            (Or.inr ⟨heq, fun hb => absurd hb (by simp [hsb])⟩))

theorem scopeCompareSpec_le_of_not_lt {a b : Scope}
    (h : ¬ scopeCompareSpec a b < 0) : scopeCompareSpec b a ≤ 0 := by
  rcases scopeCompareSpec_le_total b a with h1 | h1
  · exact h1
  · have h0 : scopeCompareSpec a b = 0 := le_antisymm h1 (not_lt.mp h)
    rw [scopeCompareSpec_eq_zero h0]
    simp [scopeCompareSpec_self]

theorem jsInsert_pairwise (x : Scope) (l : List Scope)
    (hl : l.Pairwise (fun a b => scopeCompareSpec a b ≤ 0)) :
    (jsInsert scopeCompareSpec x l).Pairwise (fun a b => scopeCompareSpec a b ≤ 0) := by
  induction l with
  | nil => simp [jsInsert]
  | cons y ys ih =>
    rw [jsInsert]
    obtain ⟨hy, hys⟩ := List.pairwise_cons.mp hl
    split
    · rename_i hxy
      refine List.pairwise_cons.mpr ⟨?_, hl⟩
      intro z hz
      rcases List.mem_cons.mp hz with rfl | hz2
      · exact le_of_lt hxy
      · exact scopeCompareSpec_trans (le_of_lt hxy) (hy z hz2)
    · rename_i hxy
      refine List.pairwise_cons.mpr ⟨?_, ih hys⟩
      intro z hz
      rcases (mem_jsInsert _ _ _ _).mp hz with rfl | hz2
      · exact scopeCompareSpec_le_of_not_lt hxy
      · exact hy z hz2

theorem jsSort_pairwise_aux : ∀ (l acc : List Scope),
    acc.Pairwise (fun a b => scopeCompareSpec a b ≤ 0) →
    (l.foldl (fun acc x => jsInsert scopeCompareSpec x acc) acc).Pairwise
      (fun a b => scopeCompareSpec a b ≤ 0) := by
  intro l
  induction l with
  | nil => intro acc h; simpa using h
  | cons x xs ih =>
    intro acc h
    exact ih _ (jsInsert_pairwise x acc h)

theorem jsSort_pairwise (l : List Scope) :
    (jsSort scopeCompareSpec l).Pairwise (fun a b => scopeCompareSpec a b ≤ 0) :=
  jsSort_pairwise_aux l [] (by simp)

theorem mem_of_mem_skipCovered (p : Scope) : ∀ (l : List Scope) (x : Scope),
    x ∈ skipCovered p l → x ∈ l := by
  intro l
  induction l with
  | nil => intro x h; simp [skipCovered, List.dropWhile] at h
  | cons y ys ih =>
    intro x h
    rw [skipCovered, List.dropWhile_cons] at h
    split at h
    · exact List.mem_cons_of_mem _ (ih x h)
    · exact h

theorem pairwise_skipCovered (p : Scope) :
    ∀ (l : List Scope), l.Pairwise (fun a b => scopeCompareSpec a b ≤ 0) →
      (skipCovered p l).Pairwise (fun a b => scopeCompareSpec a b ≤ 0) := by
  intro l
  induction l with
  | nil => intro h; exact h
  | cons y ys ih =>
    intro h
    rw [skipCovered, List.dropWhile_cons]
    split
    · exact ih (List.pairwise_cons.mp h).2
    · exact h

/-- Sandwich: in the spec order, the scopes a star scope covers form a
contiguous block after it — anything ordered between the star scope
`p ++ ['*']` and a scope starting with `p` also starts with `p`. -/
theorem prefix_sandwich (p u x : Scope)
    (hsu : scopeCompareSpec (p ++ ['*']) u ≤ 0)
    (hux : scopeCompareSpec u x ≤ 0)
    (hpx : p <+: x) : p <+: u := by
  rw [scopeCompareSpec_le_iff, scopeStem_append_star] at hsu
  rw [scopeCompareSpec_le_iff] at hux
  rcases hsu with hsu | ⟨hsu, -⟩
  · -- jsLt p (scopeStem u)
    have hx_or : p <+: scopeStem x ∨ (endsWithStar x = true ∧ p = x) := by
      cases hsx : endsWithStar x with
      | false => rw [scopeStem_nonstar x hsx]; exact Or.inl hpx
      | true =>
        by_cases hlen : p.length ≤ (scopeStem x).length
        · exact Or.inl (List.prefix_of_prefix_length_le hpx (scopeStem_isPrefix x) hlen)
        · right
          refine ⟨rfl, hpx.eq_of_length ?_⟩
          have h1 := hpx.length_le
          have h2 := length_scopeStem_star x hsx
          omega
    rcases hx_or with hpsx | ⟨hsx, hpeqx⟩
    · -- p ≤lex stem u ≤lex stem x and p <+: stem x
      have hstem_pfx : p <+: scopeStem u := by
        apply jsLt_prefix_sandwich p (scopeStem u) (scopeStem x) (Or.inl hsu)
        · rcases hux with hux | ⟨hux, -⟩
          · exact Or.inl hux
          · exact Or.inr hux
        · exact hpsx
      exact hstem_pfx.trans (scopeStem_isPrefix u)
    · -- p = x, x a star scope: then stem x <lex p, contradicting p ≤lex stem u ≤lex stem x
      exfalso
      have hxp : jsLt (scopeStem x) p = true := by
        have h1 : jsLt (scopeStem x) (scopeStem x ++ ['*']) = true :=
          jsLt_append_ne _ _ (by simp)
        rw [← scopeStem_star x hsx] at h1
        rw [hpeqx]
        exact h1
      rcases hux with hux | ⟨hux, -⟩
      · have := jsLt_trans _ _ _ (jsLt_trans _ _ _ hsu hux) hxp
        rw [jsLt_irrefl] at this
        simp at this
      · rw [hux] at hsu
        have := jsLt_trans _ _ _ hsu hxp
        rw [jsLt_irrefl] at this
        simp at this
  · -- p = scopeStem u
    rw [hsu]
    exact scopeStem_isPrefix u

/-- No scope starting with the emitted star scope's stem survives the
skip, provided the list is sorted and dominated by the star scope. -/
theorem not_mem_skipCovered_of_prefix (p : Scope) :
    ∀ (rest : List Scope),
      (∀ u ∈ rest, scopeCompareSpec (p ++ ['*']) u ≤ 0) →
      rest.Pairwise (fun a b => scopeCompareSpec a b ≤ 0) →
      ∀ x, x ∈ skipCovered p rest → p.isPrefixOf x = true → False := by
  intro rest
  induction rest with
  | nil => intro _ _ x hx _; simp [skipCovered, List.dropWhile] at hx
  | cons u rest ih =>
    intro hall hpw x hx hpx
    rw [skipCovered, List.dropWhile_cons] at hx
    split at hx
    · exact ih (fun v hv => hall v (List.mem_cons_of_mem _ hv))
        (List.pairwise_cons.mp hpw).2 x hx hpx
    · rename_i hpu
      rcases List.mem_cons.mp hx with rfl | hx2
      · exact hpu hpx
      · have hsu : scopeCompareSpec (p ++ ['*']) u ≤ 0 := hall u (List.mem_cons_self _ _)
        have hux : scopeCompareSpec u x ≤ 0 := (List.pairwise_cons.mp hpw).1 x hx2
        have hp2 : p <+: u := prefix_sandwich p u x hsu hux ((isPrefixOf_eq _ _).mp hpx)
        exact hpu ((isPrefixOf_eq _ _).mpr hp2)

theorem mem_drainGo_sorted :
    ∀ (n : Nat) (l : List Scope), l.length ≤ n →
      l.Pairwise (fun a b => scopeCompareSpec a b ≤ 0) →
      ∀ x, (x ∈ drainGo n l ↔ (x ∈ l ∧ ∀ y ∈ l, ¬ covR y x)) := by
  intro n
  induction n with
  | zero =>
    intro l hl _ x
    rw [List.length_eq_zero.mp (Nat.le_zero.mp hl)]
    simp [drainGo]
  | succ n ih =>
    intro l hl hpw x
    cases l with
    | nil => simp [drainGo]
    | cons s rest =>
      obtain ⟨hhead, htail⟩ := List.pairwise_cons.mp hpw
      have hlen : rest.length ≤ n := by
        simp only [List.length_cons] at hl; omega
      have hs_uncov : ∀ y ∈ s :: rest, ¬ covR y s := by
        intro y hy hc
        rcases List.mem_cons.mp hy with rfl | hy2
        · have h0 := hc.2.2
          rw [scopeCompareSpec_self] at h0
          exact absurd h0 (by decide)
        · exact scopeCompareSpec_asymm (hhead y hy2) hc.2.2
      have hunfold : drainGo (n + 1) (s :: rest) =
          if endsWithStar s then s :: drainGo n (skipCovered s.dropLast rest)
          else s :: drainGo n rest := rfl
      cases hstar : endsWithStar s with
      | false =>
        rw [hunfold, if_neg (by simp [hstar])]
        have hiff := ih rest hlen htail x
        constructor
        · intro hmem
          rcases List.mem_cons.mp hmem with rfl | h2
          · exact ⟨List.mem_cons_self _ _, hs_uncov⟩
          · obtain ⟨hxr, hncov⟩ := hiff.mp h2
            refine ⟨List.mem_cons_of_mem _ hxr, ?_⟩
            intro y hy hc
            rcases List.mem_cons.mp hy with rfl | hy2
            · exact absurd hc.1 (by simp [hstar])
            · exact hncov y hy2 hc
        · rintro ⟨hmem, hncov⟩
          rcases List.mem_cons.mp hmem with rfl | h2
          · exact List.mem_cons_self _ _
          · exact List.mem_cons_of_mem _ (hiff.mpr
              ⟨h2, fun y hy hc => hncov y (List.mem_cons_of_mem _ hy) hc⟩)
      | true =>
        rw [hunfold, if_pos hstar]
        have hstem_s : scopeStem s = s.dropLast := by
          unfold scopeStem; rw [if_pos hstar]
        have hs_decomp : s = s.dropLast ++ ['*'] := eq_dropLast_append_star s hstar
        have hall : ∀ u ∈ rest, scopeCompareSpec (s.dropLast ++ ['*']) u ≤ 0 := by
          intro u hu
          rw [← hs_decomp]
          exact hhead u hu
        have hskip_len : (skipCovered s.dropLast rest).length ≤ n := by
          have := length_skipCovered_le s.dropLast rest
          omega
        have hiff := ih (skipCovered s.dropLast rest) hskip_len
          (pairwise_skipCovered _ _ htail) x
        constructor
        · intro hmem
          rcases List.mem_cons.mp hmem with rfl | h2
          · exact ⟨List.mem_cons_self _ _, hs_uncov⟩
          · obtain ⟨hxr, hncov⟩ := hiff.mp h2
            have hxrest : x ∈ rest := mem_of_mem_skipCovered _ _ _ hxr
            refine ⟨List.mem_cons_of_mem _ hxrest, ?_⟩
            intro y hy hc
            rcases List.mem_cons.mp hy with rfl | hy2
            · refine not_mem_skipCovered_of_prefix _ rest hall htail x hxr ?_
              rw [isPrefixOf_eq, ← hstem_s]
              exact hc.2.1
            · have hy_split := hy2
              rw [← List.takeWhile_append_dropWhile
                    (p := fun t => (s.dropLast).isPrefixOf t) (l := rest)] at hy_split
              rcases List.mem_append.mp hy_split with hyt | hyr
              · have hpy : (s.dropLast).isPrefixOf y = true := mem_takeWhile_sat _ _ _ hyt
                have hpy2 : s.dropLast <+: y := (isPrefixOf_eq _ _).mp hpy
                obtain ⟨hy_star, hy_stem, hy_cmp⟩ := hc
                by_cases hlen2 : (s.dropLast).length ≤ (scopeStem y).length
                · have h1 : s.dropLast <+: scopeStem y :=
                    List.prefix_of_prefix_length_le hpy2 (scopeStem_isPrefix y) hlen2
                  refine not_mem_skipCovered_of_prefix s.dropLast rest hall htail x hxr ?_
                  rw [isPrefixOf_eq]
                  exact h1.trans hy_stem
                · have hylen : y.length = (scopeStem y).length + 1 :=
                    length_scopeStem_star y hy_star
                  have hple := hpy2.length_le
                  have hpeq : s.dropLast = y := hpy2.eq_of_length (by omega)
                  have hylt : scopeCompareSpec y s < 0 := by
                    rw [scopeCompareSpec_lt_iff]
                    left
                    rw [hstem_s, ← hpeq]
                    have h1 : jsLt (scopeStem y) (scopeStem y ++ ['*']) = true :=
                      jsLt_append_ne _ _ (by simp)
                    rw [← scopeStem_star y hy_star] at h1
                    rw [hpeq]
                    exact h1
                  exact scopeCompareSpec_asymm (hhead y hy2) hylt
              · exact hncov y hyr hc
        · rintro ⟨hmem, hncov⟩
          rcases List.mem_cons.mp hmem with rfl | h2
          · exact List.mem_cons_self _ _
          · have hx_split := h2
            rw [← List.takeWhile_append_dropWhile
                  (p := fun t => (s.dropLast).isPrefixOf t) (l := rest)] at hx_split
            rcases List.mem_append.mp hx_split with hxt | hxr
            · have hpx : (s.dropLast).isPrefixOf x = true := mem_takeWhile_sat _ _ _ hxt
              have hle := hhead x h2
              rcases lt_or_eq_of_le hle with hlt | heq0
              · exact absurd
                  ⟨hstar, by rw [hstem_s]; exact (isPrefixOf_eq _ _).mp hpx, hlt⟩
                  (hncov s (List.mem_cons_self _ _))
              · have hsx : s = x := scopeCompareSpec_eq_zero heq0
                rw [← hsx]
                exact List.mem_cons_self _ _
            · refine List.mem_cons_of_mem _ (hiff.mpr ⟨hxr, ?_⟩)
              intro y hy hc
              exact hncov y (List.mem_cons_of_mem _ (mem_of_mem_skipCovered _ _ _ hy)) hc

/-- Membership in normalize (sort then merge with the empty set): exactly
the members not strictly covered by another member. -/
theorem mem_normalize_iff (M : List Scope) (x : Scope) :
    x ∈ drainScopes (jsSort scopeCompareSpec M) ↔
      (x ∈ M ∧ ∀ y ∈ M, ¬ covR y x) := by
  rw [drainScopes,
    mem_drainGo_sorted _ _ (Nat.le_refl _) (jsSort_pairwise M) x]
  constructor
  · rintro ⟨h1, h2⟩
    exact ⟨(mem_jsSort _ _ _).mp h1, fun y hy => h2 y ((mem_jsSort _ _ _).mpr hy)⟩
  · rintro ⟨h1, h2⟩
    exact ⟨(mem_jsSort _ _ _).mpr h1, fun y hy => h2 y ((mem_jsSort _ _ _).mp hy)⟩

theorem covR_trans {z y x : Scope} (hzy : covR z y) (hyx : covR y x) : covR z x := by
  obtain ⟨hz1, hz2, hz3⟩ := hzy
  obtain ⟨hy1, hy2, hy3⟩ := hyx
  refine ⟨hz1, ?_, scopeCompareSpec_trans_lt hz3 hy3⟩
  by_cases hlen : (scopeStem z).length ≤ (scopeStem y).length
  · exact (List.prefix_of_prefix_length_le hz2 (scopeStem_isPrefix y) hlen).trans hy2
  · exfalso
    have hylen : y.length = (scopeStem y).length + 1 := length_scopeStem_star y hy1
    have hzle := hz2.length_le
    have hzy_eq : scopeStem z = y := hz2.eq_of_length (by omega)
    rcases (scopeCompareSpec_lt_iff z y).mp hz3 with hlt | ⟨-, -, hy_ns⟩
    · have h1 : jsLt (scopeStem y) (scopeStem y ++ ['*']) = true :=
        jsLt_append_ne _ _ (by simp)
      rw [← scopeStem_star y hy1] at h1
      rw [hzy_eq] at hlt
      rw [jsLt_asymm _ _ h1] at hlt
      simp at hlt
    · rw [hy_ns] at hy1
      simp at hy1

theorem exists_min_coverer : ∀ (M : List Scope) (x : Scope),
    (∃ y ∈ M, covR y x) →
    ∃ y ∈ M, covR y x ∧ ∀ z ∈ M, covR z x → scopeCompareSpec y z ≤ 0 := by
  intro M
  induction M with
  | nil =>
    rintro x ⟨y, hy, -⟩
    simp at hy
  | cons a M ih =>
    intro x hex
    by_cases hex2 : ∃ y ∈ M, covR y x
    · obtain ⟨m, hm, hcov, hmin⟩ := ih x hex2
      by_cases hax : covR a x
      · rcases scopeCompareSpec_le_total a m with h | h
        · refine ⟨a, List.mem_cons_self _ _, hax, ?_⟩
          intro z hz hcz
          rcases List.mem_cons.mp hz with rfl | hz2
          · rw [scopeCompareSpec_self]
          · exact scopeCompareSpec_trans h (hmin z hz2 hcz)
        · refine ⟨m, List.mem_cons_of_mem _ hm, hcov, ?_⟩
          intro z hz hcz
          rcases List.mem_cons.mp hz with rfl | hz2
          · exact h
          · exact hmin z hz2 hcz
      · refine ⟨m, List.mem_cons_of_mem _ hm, hcov, ?_⟩
        intro z hz hcz
        rcases List.mem_cons.mp hz with rfl | hz2
        · exact absurd hcz hax
        · exact hmin z hz2 hcz
    · obtain ⟨y, hy, hcy⟩ := hex
      rcases List.mem_cons.mp hy with rfl | hy2
      · refine ⟨y, List.mem_cons_self _ _, hcy, ?_⟩
        intro z hz hcz
        rcases List.mem_cons.mp hz with rfl | hz2
        · rw [scopeCompareSpec_self]
        · exact absurd ⟨z, hz2, hcz⟩ hex2
      · exact absurd ⟨y, hy2, hcy⟩ hex2

/-- The final work list is closed under expansion: within a run that
completes, every assume-like scope in the result was marked seen and had
its expansion appended, so the expansion is in the result too. -/
theorem runLoop_closed (exp : Scope → List Scope) :
    ∀ (fuel : Nat) (visited pending seen w : List Scope),
      runLoop exp fuel visited pending seen = some w →
      (∀ s ∈ visited, assumeLike s = true → s ∈ seen) →
      (∀ s ∈ seen, ∀ t ∈ exp s, t ∈ visited ∨ t ∈ pending) →
      ∀ s ∈ w, assumeLike s = true → ∀ t ∈ exp s, t ∈ w := by
  intro fuel
  induction fuel with
  | zero =>
    intro visited pending seen w h
    simp [runLoop] at h
  | succ fuel ih =>
    intro visited pending seen w h hJ hI
    cases pending with
    | nil =>
      simp only [runLoop, Option.some.injEq] at h
      subst h
      intro s hs hal t ht
      have hsv : s ∈ visited := List.mem_reverse.mp hs
      rcases hI s (hJ s hsv hal) t ht with h1 | h1
      · exact List.mem_reverse.mpr h1
      · simp at h1
    | cons s0 rest =>
      rw [runLoop] at h
      split at h
      · rename_i hnal
        refine ih _ _ _ _ h ?_ ?_
        · intro s hs hal
          rcases List.mem_cons.mp hs with rfl | hs2
          · rw [hal] at hnal; simp at hnal
          · exact hJ s hs2 hal
        · intro s hseen t ht
          rcases hI s hseen t ht with h1 | h1
          · exact Or.inl (List.mem_cons_of_mem _ h1)
          · rcases List.mem_cons.mp h1 with rfl | h2
            · exact Or.inl (List.mem_cons_self _ _)
            · exact Or.inr h2
      · split at h
        · rename_i hseen0
          refine ih _ _ _ _ h ?_ ?_
          · intro s hs hal
            rcases List.mem_cons.mp hs with rfl | hs2
            · exact hseen0
            · exact hJ s hs2 hal
          · intro s hseen t ht
            rcases hI s hseen t ht with h1 | h1
            · exact Or.inl (List.mem_cons_of_mem _ h1)
            · rcases List.mem_cons.mp h1 with rfl | h2
              · exact Or.inl (List.mem_cons_self _ _)
              · exact Or.inr h2
        · refine ih _ _ _ _ h ?_ ?_
          · intro s hs hal
            rcases List.mem_cons.mp hs with rfl | hs2
            · exact List.mem_cons_self _ _
            · exact List.mem_cons_of_mem _ (hJ s hs2 hal)
          · intro s hseen t ht
            rcases List.mem_cons.mp hseen with rfl | hs2
            · exact Or.inr (List.mem_append_right _ ht)
            · rcases hI s hs2 t ht with h1 | h1
              · exact Or.inl (List.mem_cons_of_mem _ h1)
              · rcases List.mem_cons.mp h1 with rfl | h2
                · exact Or.inl (List.mem_cons_self _ _)
                · exact Or.inr (List.mem_append_left _ h2)

/-- The loop never leaves a set that contains the initial work list and
is closed under expansion. -/
theorem runLoop_subsetA (exp : Scope → List Scope) (A : List Scope)
    (hA : ∀ s ∈ A, assumeLike s = true → ∀ t ∈ exp s, t ∈ A) :
    ∀ (fuel : Nat) (visited pending seen w : List Scope),
      runLoop exp fuel visited pending seen = some w →
      (∀ s ∈ visited, s ∈ A) → (∀ s ∈ pending, s ∈ A) →
      ∀ x ∈ w, x ∈ A := by
  intro fuel
  induction fuel with
  | zero =>
    intro visited pending seen w h
    simp [runLoop] at h
  | succ fuel ih =>
    intro visited pending seen w h hv hp
    cases pending with
    | nil =>
      simp only [runLoop, Option.some.injEq] at h
      subst h
      intro x hx
      exact hv x (List.mem_reverse.mp hx)
    | cons s0 rest =>
      rw [runLoop] at h
      have hv2 : ∀ s ∈ s0 :: visited, s ∈ A := by
        intro s hs
        rcases List.mem_cons.mp hs with rfl | hs2
        · exact hp s (List.mem_cons_self _ _)
        · exact hv s hs2
      have hrest : ∀ s ∈ rest, s ∈ A := fun s hs => hp s (List.mem_cons_of_mem _ hs)
      split at h
      · exact ih _ _ _ _ h hv2 hrest
      · split at h
        · exact ih _ _ _ _ h hv2 hrest
        · rename_i hal hns
          refine ih _ _ _ _ h hv2 ?_
          intro s hs
          rcases List.mem_append.mp hs with h1 | h1
          · exact hrest s h1
          · have hal2 : assumeLike s0 = true := by
              simpa using hal
            exact hA s0 (hp s0 (List.mem_cons_self _ _)) hal2 s h1

/-! Claim theorems. -/

/-- C2: the claim asserts `expandedScopes` is the normalized least fixed
point; evaluating the code refutes it.  For the single role `r` with
scopes `["ab*", "ab"]` (no implied roles), `computeFixedPoint` merely
sorts the scopes (to `["ab*", "ab"]`) and returns them unchanged as
`expandedScopes` — `traveseImpliedRoles` never merges, so nothing is
normalized and `"ab"` is retained although the distinct member `"ab*"`
satisfies it; the normalized fixed point would be `["ab*"]`.  The
violation is comparator-independent (no merge runs at all) and the
in-repo `auth/dfa.js` variant of `computeFixedPoint` (lines 508-590)
behaves the same way at this input. -/
theorem c2_fixed_point_not_normalized :
    (computeFixedPoint 50 [0] [⟨0, "r".toList, ["ab*".toList, "ab".toList]⟩]).expanded =
      [(0, ["ab*".toList, "ab".toList])] ∧
    "ab".toList ∈ (((computeFixedPoint 50 [0]
      [⟨0, "r".toList, ["ab*".toList, "ab".toList]⟩]).expanded.map Prod.snd).getD 0 []) ∧
    jsSatisfies ("ab*".toList) ("ab".toList) = true ∧
    ("ab".toList : Scope) ≠ "ab*".toList := by decide

/-- C3: the claim (and the comparator's own doc comment, which sorts
`'a*'` before `'a'`) requires `scopeCompare` to order the wildcard first
in both argument orders for covered pairs of length difference one; the
code returns a negative result in both orders for the pair
`("ab", "ab*")`, because the wildcard test in the `d == 1` branch reads
`b[n-1]` with `n` the length of `a`. -/
theorem c3_scopeCompare_covered_pair :
    scopeCompare ("ab*".toList) ("ab".toList) = -1 ∧
    scopeCompare ("ab".toList) ("ab*".toList) = -1 ∧
    ¬ scopeCompare ("ab".toList) ("ab*".toList) > 0 := by decide

/-- C4 counterexample: the claim asserts `resolve(resolve(S)) =
resolve(S)`; evaluating the model refutes the literal array equality.
With the single role `{roleId: "A", scopes: ["x"]}` and `S =
["assume:A"]`, the first pass returns `["assume:A", "x"]`; the second
pass expands `assume:A` again (the loop's `seen` set is local to one
resolve call) and appends another copy of `"x"`, and the final
normalization — sort then merge with the empty set — keeps duplicate
non-star scopes, so the second pass returns `["assume:A", "x", "x"]`, a
different array (and multiset) from the first. -/
theorem c4_resolve_not_idempotent_lists :
    resolveTotal [⟨0, "A".toList, ["x".toList]⟩] ["assume:A".toList] =
      ["assume:A".toList, "x".toList] ∧
    resolveTotal [⟨0, "A".toList, ["x".toList]⟩]
      (resolveTotal [⟨0, "A".toList, ["x".toList]⟩] ["assume:A".toList]) =
      ["assume:A".toList, "x".toList, "x".toList] ∧
    resolveTotal [⟨0, "A".toList, ["x".toList]⟩]
      (resolveTotal [⟨0, "A".toList, ["x".toList]⟩] ["assume:A".toList]) ≠
      resolveTotal [⟨0, "A".toList, ["x".toList]⟩] ["assume:A".toList] := by decide

/-- C4 amended: resolve is idempotent as a set of scopes — for every role
catalog and input list, the second pass returns exactly the scopes of the
first pass's result.  Proof: the first work list is closed under
expansion (`runLoop_closed`), so the second work list stays inside it
(`runLoop_subsetA`) while containing the first output (`runLoop_mem`);
membership in the normalized output is membership in the work list minus
strict coverage by another work-list member (`mem_normalize_iff`), and a
covered scope's sort-minimal coverer is itself uncovered
(`covR_trans` with `exists_min_coverer`), hence survives into the first
output and the second work list, covering the scope there too. -/
theorem c4_resolve_idempotent (roles : List FRole) (S O1 O2 : List Scope)
    (h1 : resolveModel roles S = some O1)
    (h2 : resolveModel roles O1 = some O2) :
    ∀ x, (x ∈ O2 ↔ x ∈ O1) := by
  simp only [resolveModel] at h1 h2
  split at h1
  · rename_i work1 hrun1
    simp only [Option.some.injEq] at h1
    subst h1
    split at h2
    · rename_i work2 hrun2
      simp only [Option.some.injEq] at h2
      subst h2
      have hclosed1 : ∀ s ∈ work1, assumeLike s = true →
          ∀ t ∈ expModel roles s, t ∈ work1 :=
        runLoop_closed (expModel roles) _ [] S [] work1 hrun1
          (by simp) (by simp)
      have hO1w1 : ∀ x ∈ drainScopes (jsSort scopeCompareSpec work1), x ∈ work1 :=
        fun x hx => ((mem_normalize_iff work1 x).mp hx).1
      have hsub21 : ∀ x ∈ work2, x ∈ work1 :=
        runLoop_subsetA (expModel roles) work1 hclosed1 _ [] _ [] work2 hrun2
          (by simp) hO1w1
      have hO1w2 : ∀ x ∈ drainScopes (jsSort scopeCompareSpec work1), x ∈ work2 :=
        fun x hx => runLoop_mem _ _ _ _ _ _ hrun2 x (Or.inr hx)
      intro x
      rw [mem_normalize_iff work2 x, mem_normalize_iff work1 x]
      constructor
      · rintro ⟨hxw2, hnc2⟩
        refine ⟨hsub21 x hxw2, ?_⟩
        intro y hy hcov
        obtain ⟨y0, hy0w1, hy0cov, hy0min⟩ := exists_min_coverer work1 x ⟨y, hy, hcov⟩
        have hy0unc : ∀ z ∈ work1, ¬ covR z y0 := by
          intro z hz hczy
          exact scopeCompareSpec_asymm (hy0min z hz (covR_trans hczy hy0cov)) hczy.2.2
        have hy0O1 : y0 ∈ drainScopes (jsSort scopeCompareSpec work1) :=
          (mem_normalize_iff work1 y0).mpr ⟨hy0w1, hy0unc⟩
        exact hnc2 y0 (hO1w2 y0 hy0O1) hy0cov
      · rintro ⟨hxw1, hnc1⟩
        have hxO1 : x ∈ drainScopes (jsSort scopeCompareSpec work1) :=
          (mem_normalize_iff work1 x).mpr ⟨hxw1, hnc1⟩
        refine ⟨hO1w2 x hxO1, ?_⟩
        intro y hy hcov
        exact hnc1 y (hsub21 y hy) hcov
    · simp at h2
  · simp at h1

/-- C4 witness: the amended idempotence applied at the counterexample's
input — the second pass's array differs from the first only in the
multiplicity of `"x"`, never in membership. -/
theorem c4_resolve_idempotent_witness :
    ("x".toList ∈ (["assume:A".toList, "x".toList, "x".toList] : List Scope) ↔
      "x".toList ∈ (["assume:A".toList, "x".toList] : List Scope)) :=
  c4_resolve_idempotent [⟨0, "A".toList, ["x".toList]⟩] ["assume:A".toList]
    ["assume:A".toList, "x".toList] ["assume:A".toList, "x".toList, "x".toList]
    (by decide) (by decide) ("x".toList)

/-- C5: resolve is total — the work-list loop of `resolve` completes on
every finite role catalog (cycles included) and every input list, and on
the cyclic catalog `A ↔ B` the result of `resolve(["assume:A"])`
contains `scope-a`, `scope-b`, `assume:A` and `assume:B`. -/
theorem c5_resolve_total_and_cycle :
    (∀ (roles : List FRole) (inputs : List Scope),
      (resolveModel roles inputs).isSome = true) ∧
    ("scope-a".toList ∈ resolveTotal cycleRoles ["assume:A".toList] ∧
     "scope-b".toList ∈ resolveTotal cycleRoles ["assume:A".toList] ∧
     "assume:A".toList ∈ resolveTotal cycleRoles ["assume:A".toList] ∧
     "assume:B".toList ∈ resolveTotal cycleRoles ["assume:A".toList]) :=
  ⟨resolveModel_isSome, by decide⟩

/-- C6: the claim asserts `mergeScopeSets` is commutative as sets on
sorted normalized inputs; evaluating the code refutes it.  For the
singleton inputs `["ab"]` and `["ab*"]`, the comparator answers -1 in
both argument orders, so one order keeps both scopes while the other
collapses to `["ab*"]`. -/
theorem c6_merge_not_commutative :
    mergeScopeSets ["ab".toList] ["ab*".toList] = ["ab".toList, "ab*".toList] ∧
    mergeScopeSets ["ab*".toList] ["ab".toList] = ["ab*".toList] ∧
    ("ab".toList : Scope) ∈ mergeScopeSets ["ab".toList] ["ab*".toList] ∧
    ("ab".toList : Scope) ∉ mergeScopeSets ["ab*".toList] ["ab".toList] := by decide

/-- C7 counterexample: the claim asserts that whenever `a` satisfies `b`,
normalizing `{a, b}` yields `{a}` for each in-repo variant; for the
mutually-satisfying distinct pair `a = "a*"`, `b = "a**"` the
scoperesolver.js variant removes both scopes and returns the empty
set. -/
theorem c7_absorption_counterexample :
    jsSatisfies ("a*".toList) ("a**".toList) = true ∧
    ScopeResolver.normalizeScopes ["a*".toList, "a**".toList] = [] := by decide

/-- C7 amended: the scoperesolver.js `normalizeScopes` absorbs `b` into
`a` whenever `a` satisfies `b` and `b` does not satisfy `a` back (or is
equal); the concrete ten-scope example works for that variant; the
data2.js variant only deduplicates — its covered-scope filter is inert
because its inner test compares `other === other`. -/
theorem c7_absorption_amended :
    (∀ a b : Scope, jsSatisfies a b = true → (b = a ∨ jsSatisfies b a = false) →
      ScopeResolver.normalizeScopes [a, b] = [a]) ∧
    ScopeResolver.normalizeScopes
      (["a*", "ab", "aa", "b*", "c", "ca", "da*", "abc", "ab*", "daa"].map String.toList) =
      ["a*", "b*", "c", "ca", "da*"].map String.toList ∧
    (∀ l : List Scope, Data2.normalizeScopes l = jsUniq l) :=
  ⟨normalizeScopes_pair_strict, by decide, fun l => by
    simp [Data2.normalizeScopes]⟩

/-- C7 witness: the amended absorption at the concrete strict pair
`("a*", "ab")`. -/
theorem c7_absorption_amended_witness :
    ScopeResolver.normalizeScopes ["a*".toList, "ab".toList] = ["a*".toList] :=
  c7_absorption_amended.1 ("a*".toList) ("ab".toList) (by decide) (Or.inr (by decide))

/-- C8: `loadClient` fails NotFound exactly when the client id has no
cache entry, and for a cached client fails Disabled when the disabled
flag is set, Expired when (not disabled and) the expiry lies before now,
and otherwise returns the cached record (its `updateLastUsed` flag
cleared, as the code clears it before firing the asynchronous
last-used update). -/
theorem c8_loadClient_cases (cache : List CachedClient) (now : Int) (clientId : Scope) :
    (loadClient cache now clientId = .error .notFound ↔
      cache.find? (fun c => c.clientId == clientId) = none) ∧
    (∀ c, cache.find? (fun c => c.clientId == clientId) = some c →
      ((c.disabled = true → loadClient cache now clientId = .error .disabled) ∧
       (c.disabled = false → c.expires < now →
         loadClient cache now clientId = .error .expired) ∧
       (c.disabled = false → ¬(c.expires < now) →
         loadClient cache now clientId = .ok { c with updateLastUsed := false }))) := by
  constructor
  · cases hfind : cache.find? (fun c => c.clientId == clientId) with
    | none => simp [loadClient, hfind]
    | some c =>
      simp only [loadClient, hfind]
      constructor
      · intro h
        split at h
        · simp at h
        · split at h
          · simp at h
          · simp at h
      · intro h
        simp at h
  · intro c hfind
    refine ⟨fun hd => ?_, fun hd he => ?_, fun hd he => ?_⟩
    · simp [loadClient, hfind, hd]
    · simp [loadClient, hfind, hd, he]
    · simp [loadClient, hfind, hd, he]

/-- C8 witness: a cached client with the disabled flag set makes
`loadClient` fail Disabled. -/
theorem c8_loadClient_cases_witness :
    loadClient [⟨"c".toList, "t".toList, 10, true, false, [], [], []⟩] 5 ("c".toList) =
      .error .disabled :=
  ((c8_loadClient_cases [⟨"c".toList, "t".toList, 10, true, false, [], [], []⟩] 5
      ("c".toList)).2 ⟨"c".toList, "t".toList, 10, true, false, [], [], []⟩
      (by decide)).1 rfl

/-- C9: a reload whose client scan or role scan fails publishes nothing —
the role list, client list and client cache (and hence the resolver,
which is a function of the role list) are left exactly as before the
reload began. -/
theorem c9_reload_atomic {ε : Type} (st : ResolverState)
    (clientScan : Except ε (List RawClient))
    (roleScan : Except ε (List (Scope × List Scope))) (minLastUsed : Int)
    (h : (∃ e, clientScan = .error e) ∨ (∃ e, roleScan = .error e)) :
    applyReload st clientScan roleScan minLastUsed = st ∧
    (applyReload st clientScan roleScan minLastUsed).roles = st.roles ∧
    (applyReload st clientScan roleScan minLastUsed).clients = st.clients ∧
    (applyReload st clientScan roleScan minLastUsed).clientCache = st.clientCache := by
  have heq : applyReload st clientScan roleScan minLastUsed = st := by
    rcases h with ⟨e, he⟩ | ⟨e, he⟩
    · subst he
      simp [applyReload, reloadResult]
    · subst he
      cases clientScan with
      | error e2 => simp [applyReload, reloadResult]
      | ok cs => simp [applyReload, reloadResult]
  exact ⟨heq, by rw [heq], by rw [heq], by rw [heq]⟩

/-- C9 witness: a failing client scan over the empty snapshot changes
nothing. -/
theorem c9_reload_atomic_witness :
    applyReload (⟨[], [], []⟩ : ResolverState) (Except.error ()) (Except.ok []) 0 =
      (⟨[], [], []⟩ : ResolverState) :=
  (c9_reload_atomic ⟨[], [], []⟩ (Except.error ()) (Except.ok []) 0
    (Or.inl ⟨(), rfl⟩)).1

/-- C10: resolve is extensive — every input scope is satisfied by some
element of the result: the work list starts as a copy of the inputs and
only grows, and the final normalization drops a scope only when a kept
star scope's stem starts it. -/
theorem c10_resolve_extensive (roles : List FRole) (inputs result : List Scope)
    (h : resolveModel roles inputs = some result) :
    ∀ s ∈ inputs, ∃ y ∈ result, jsSatisfies y s = true := by
  intro s hs
  simp only [resolveModel] at h
  split at h
  · rename_i work hrun
    simp only [Option.some.injEq] at h
    subst h
    have hw : s ∈ work := runLoop_mem _ _ _ _ _ _ hrun s (Or.inr hs)
    have hsorted : s ∈ jsSort scopeCompareSpec work := (mem_jsSort _ _ _).mpr hw
    exact drainScopes_covers (jsSort scopeCompareSpec work) s hsorted
  · simp at h

/-- C10 witness: the extensiveness at the concrete input `["a"]` with no
roles. -/
theorem c10_resolve_extensive_witness :
    ∃ y ∈ (["a".toList] : List Scope), jsSatisfies y ("a".toList) = true :=
  c10_resolve_extensive [] ["a".toList] ["a".toList] (by decide) ("a".toList)
    (List.mem_singleton.mpr rfl)
